import Mathlib

/-!
Verification development for the pfstatsd telemetry daemon.

The definitions below are a shallow embedding of the Python sources:
`pfstatsd/graphite.py` (metric session, reliable transport flush and
connect-retry logic), `pfstatsd/pf.py` (PF queue-status parser and
hierarchical aggregation) and `pfstatsd/ping.py` (ICMP probe engine).
Python dicts are modelled as insertion-ordered association lists, Python
ints/floats as `Int`/`Rat` (with an explicit variant type where the code
can observe non-finite floats), and fallible code returns `Option` or
`Except`.
-/

namespace Pfstatsd

instance {ε α : Type} [DecidableEq ε] [DecidableEq α] : DecidableEq (Except ε α) :=
  fun a b =>
    match a, b with
    | .ok x, .ok y =>
      if h : x = y then isTrue (by rw [h]) else isFalse (by simp [h])
    | .error x, .error y =>
      if h : x = y then isTrue (by rw [h]) else isFalse (by simp [h])
    | .ok _, .error _ => isFalse (by simp)
    | .error _, .ok _ => isFalse (by simp)

/-- Association-list lookup, Python `dict[k]` access (by insertion order,
first matching key). -/
def alookup {α : Type} (m : List (String × α)) (k : String) : Option α :=
  match m with
  | [] => none
  | (k', v) :: rest => if k' = k then some v else alookup rest k

/-- Python `dict[k] = v`: replace the value in place when the key is
present, keeping its position, otherwise append at the end. -/
def aset {α : Type} (m : List (String × α)) (k : String) (v : α) : List (String × α) :=
  match m with
  | [] => [(k, v)]
  | (k', v') :: rest => if k' = k then (k, v) :: rest else (k', v') :: aset rest k v

/-- Whitespace strip on a character list, Python `str.strip()`. -/
def stripWs (cs : List Char) : List Char :=
  ((cs.dropWhile Char.isWhitespace).reverse.dropWhile Char.isWhitespace).reverse

/-- Drop the prefix `p` from `cs`: `some` of the remainder when `p` is a
prefix, else `none`. -/
def dropPreL : List Char → List Char → Option (List Char)
  | [], cs => some cs
  | _ :: _, [] => none
  | p :: ps, c :: cs => if p = c then dropPreL ps cs else none

/-- Python `str.startswith`. -/
def strStartsWith (s p : String) : Bool := (dropPreL p.data s.data).isSome

/-- Python `str.endswith`. -/
def strEndsWith (s p : String) : Bool := (dropPreL p.data.reverse s.data.reverse).isSome

/-- Python `str.strip()`. -/
def strTrim (s : String) : String := String.mk (stripWs s.data)

/-- Python slicing `s[n:]`. -/
def strDrop (s : String) (n : Nat) : String := String.mk (s.data.drop n)

/-- Fuel-driven split on a non-empty separator (structural recursion on
the fuel so that proofs can evaluate it). -/
def splitOnFuel (sep : List Char) : Nat → List Char → List (List Char)
  | 0, cs => [cs]
  | fuel + 1, cs =>
    match cs with
    | [] => [[]]
    | c :: rest =>
      match dropPreL sep cs with
      | some remaining => [] :: splitOnFuel sep fuel remaining
      | none =>
        match splitOnFuel sep fuel rest with
        | [] => [[c]]
        | h :: t => (c :: h) :: t

/-- Python `str.split(sep)` for a non-empty separator. -/
def strSplitOn (s sep : String) : List String :=
  (splitOnFuel sep.data (s.data.length + 1) s.data).map String.mk

/-- Unsigned decimal digits to a natural number: the digit-parsing core
of Python `int(s, 10)`; `none` on the empty string or a non-digit
(`ValueError`). -/
def digitsToNat? (cs : List Char) : Option Nat :=
  if cs.isEmpty then none
  else
    cs.foldl
      (fun acc c =>
        match acc with
        | none => none
        | some n => if c.isDigit then some (n * 10 + (c.toNat - 48)) else none)
      (some 0)

/-- Python `int(s)` on an optionally signed decimal string with
surrounding whitespace. -/
def pyIntOfChars (cs : List Char) : Option Int :=
  match stripWs cs with
  | '-' :: ds => (digitsToNat? ds).map (fun n => -(n : Int))
  | '+' :: ds => (digitsToNat? ds).map (fun n => (n : Int))
  | ds => (digitsToNat? ds).map (fun n => (n : Int))

/-- Big-endian 4-byte encoding of a natural number, the byte content of
`struct.pack("!L", n)`. -/
def packBE4 (n : Nat) : List Nat :=
  [n / 16777216 % 256, n / 65536 % 256, n / 256 % 256, n % 256]

/-- Big-endian byte-list decoding. -/
def unpackBE4 (bs : List Nat) : Nat :=
  bs.foldl (fun acc b => acc * 256 + b) 0

/-- Python `struct.pack("!L", n)`: defined for `0 ≤ n < 2^32`, a
`struct.error` otherwise. -/
def packL (n : Nat) : Option (List Nat) :=
  if n < 4294967296 then some (packBE4 n) else none

theorem packBE4_length (n : Nat) : (packBE4 n).length = 4 := rfl

theorem unpackBE4_packBE4 (n : Nat) (h : n < 4294967296) :
    unpackBE4 (packBE4 n) = n := by
  simp only [packBE4, unpackBE4, List.foldl]
  omega

/-! ## Metric session model (`pfstatsd/graphite.py`)

A Python numeric value: the code distinguishes ints from floats only via
`isinstance`, but `float('inf')`/`float('nan')` are floats the code can
let through, so the float variants are explicit. -/

inductive PyNum where
  | int : Int → PyNum
  | finite : Rat → PyNum
  | posInf : PyNum
  | negInf : PyNum
  | nan : PyNum
deriving DecidableEq

/-- Python truthiness of a number (`0` and `0.0` are falsy, `inf` and
`nan` are truthy). -/
def PyNum.truthy : PyNum → Bool
  | .int n => n != 0
  | .finite q => q != 0
  | _ => true

/-- A Python value as passed to `Session._append_metric`'s `value`
argument: numbers pass the `isinstance((int, float))` assert, anything
else fails it. -/
inductive PyVal where
  | num : PyNum → PyVal
  | str : String → PyVal
  | noneV : PyVal
deriving DecidableEq

/-- One buffered metric: `(name, (timestamp, value))` exactly as appended
to `Session.queue`. -/
abbrev MetricEntry := String × (PyNum × PyNum)

/-- State of `graphite.Session` (the fields touched by post/flush;
`namespace` is `nsp` because `namespace` is a Lean keyword). -/
structure Session where
  host : String
  port : Int
  nsp : String
  queue : List MetricEntry
  queue_max : Int
  delay_max : Rat
  last_flush_ts : Rat
deriving DecidableEq

/-- Namespace charset check from `Session.__init__`:
`char in ('.', '_', '-') or char.isalnum()`. -/
def nspCharOk (c : Char) : Bool :=
  c = '.' || c = '_' || c = '-' || c.isAlphanum

/-- `Session.__init__(host, port, namespace, queue_max, delay_max)` with
its asserts; on success the queue is empty and `last_flush_ts = -1`. -/
def Session.init (host : String) (port : Int) (nsp : String)
    (queue_max : Int) (delay_max : Rat) : Except String Session :=
  if ¬ (port > 0) then .error "assert: positive port"
  else if host = "" then .error "assert: host required"
  else if ¬ (queue_max > 0 ∨ queue_max = -1) then
    .error "assert: Non-zero queue limit or -1 to disable"
  else if ¬ (delay_max > 0 ∨ delay_max = -1) then
    .error "assert: Non-zero delays required or -1 to disable"
  else if ¬ nsp.data.all nspCharOk then .error "assert: namespace charset"
  else .ok { host := host, port := port, nsp := nsp, queue := [],
             queue_max := queue_max, delay_max := delay_max, last_flush_ts := -1 }

/-- The namespaced metric name computed by `Session._append_metric`: a
`None` namespace argument falls back to the session namespace, a
non-empty namespace is dot-joined in front of the name. -/
def resolvedName (sessionNsp : String) (nsArg : Option String) (name : String) : String :=
  let ns := nsArg.getD sessionNsp
  if ns ≠ "" then ns ++ "." ++ name else name

/-- `Session._append_metric(name, value, timestamp, namespace)` run at
wall-clock time `now` (the value `time.time()` would return). The three
leading asserts reject, in source order: a space in the name, an empty
name, a non-`int`/`float` value. A falsy timestamp (`None`, `0`, `0.0`)
is replaced by `now` (`timestamp or time.time()`). -/
def appendMetric (s : Session) (name : String) (value : PyVal)
    (timestamp : Option PyNum) (nsArg : Option String) (now : Rat) :
    Except String Session :=
  if name.data.contains ' ' then .error "assert: spaces not allowed"
  else if name = "" then .error "assert: need a name"
  else
    match value with
    | .num v =>
      let fullName := resolvedName s.nsp nsArg name
      let ts : PyNum :=
        match timestamp with
        | some t => if t.truthy then t else .finite now
        | none => .finite now
      .ok { s with queue := s.queue ++ [(fullName, (ts, v))] }
    | _ => .error "assert: Must be a numeric value!"

/-- The flush trigger evaluated by `Session.post` after appending:
flush if `delay_max` is enabled and `now - last_flush_ts >= delay_max`,
else if `queue_max` is enabled and the buffer has reached it. -/
def shouldFlushAfterPost (s : Session) (now : Rat) : Bool :=
  if s.delay_max ≠ -1 ∧ now - s.last_flush_ts ≥ s.delay_max then true
  else if s.queue_max ≠ -1 ∧ (s.queue.length : Int) ≥ s.queue_max then true
  else false

/-- `Session.post` up to its flush decision: append the metric, then
report whether a flush is triggered on this call. -/
def postTriggersFlush (s : Session) (name : String) (value : PyVal)
    (timestamp : Option PyNum) (nsArg : Option String) (now : Rat) :
    Except String Bool :=
  (appendMetric s name value timestamp nsArg now).map
    (fun s1 => shouldFlushAfterPost s1 now)

/-- Result of one `TCPGraphite._flush` call: on success the snapshot that
was serialized, the wire message bytes, and the returned count; or the
propagated `IOError` from `transport.write`; or a `struct.error` from an
oversized payload. -/
inductive FlushOutcome where
  | sent : List MetricEntry → List Nat → Nat → FlushOutcome
  | ioError : FlushOutcome
  | structError : FlushOutcome
deriving DecidableEq

/-- `TCPGraphite._flush` run at wall-clock time `now`. `dumps` stands for
`pickle.dumps(·, protocol=2)` (the spec calls the codec a pluggable
boundary) and `writeOk` for whether `transport.write` succeeds. Source
order is preserved: snapshot `queue[:length]`, serialize, truncate
`queue[:] = queue[length:]`, pack the length header, write; an `IOError`
re-inserts the snapshot via `queue.extend(items)` and `last_flush_ts` is
only updated on success. -/
def flushRun (dumps : List MetricEntry → List Nat) (writeOk : Bool)
    (s : Session) (now : Rat) : Session × FlushOutcome :=
  let length := s.queue.length
  let items := s.queue.take length
  let payload := dumps items
  let queue1 := s.queue.drop length
  match packL payload.length with
  | none => ({ s with queue := queue1 }, .structError)
  | some header =>
    if writeOk then
      ({ s with queue := queue1, last_flush_ts := now },
       .sent items (header ++ payload) length)
    else
      ({ s with queue := queue1 ++ items }, .ioError)

/-! ## Connect retry classification (`TCPGraphite.connect`)

The `except (ConnectionError, OSError)` handler decides between retrying
with backoff and re-raising. In Python 3 every caught exception is an
`OSError`, so the decision depends only on the exception's message. -/

/-- The errno classes the handler treats as retryable,
`{errno.ECONNREFUSED, errno.ECONNABORTED, errno.ECONNRESET}` (BSD
values, the daemon's target platform). -/
def retryableErrnos : List Int := [61, 53, 54]

/-- The marker the handler looks for at the start of an aggregated
`OSError` message. -/
def multiExcMark : String := "Multiple exceptions: "

/-- Characters of a bracketed errno part up to the first `]`, `None` when
no `]` exists (Python `str.index` raises `ValueError` there). -/
def takeUntilRBracket : List Char → Option (List Char)
  | [] => none
  | c :: rest =>
    if c = ']' then some []
    else (takeUntilRBracket rest).map (fun cs => c :: cs)

/-- The errno extraction loop of `TCPGraphite.connect`: split the rest of
the message on `','`; for every part that starts with `[Errno`, parse
`int(part[7:part.index(']')])` and collect it. -/
def parseErrnosFromParts : List String → Option (List Int)
  | [] => some []
  | p :: rest =>
    if strStartsWith p "[Errno" then
      match takeUntilRBracket (p.data.drop 7) with
      | none => none
      | some cs =>
        match pyIntOfChars cs with
        | none => none
        | some n => (parseErrnosFromParts rest).map (fun l => n :: l)
    else parseErrnosFromParts rest

inductive ConnectAction where
  | retry : ConnectAction
  | reraise : ConnectAction
deriving DecidableEq

/-- The decision taken by the `except` handler in `TCPGraphite.connect`
for a caught `ConnectionError`/`OSError` with message `msg`: only an
aggregated `Multiple exceptions: ` message containing no retryable errno
is re-raised; everything else falls through to the backoff retry. -/
def connectErrorAction (msg : String) : Option ConnectAction :=
  if strStartsWith msg multiExcMark then
    match parseErrnosFromParts (strSplitOn (strDrop msg multiExcMark.data.length) ",") with
    | none => none
    | some errnos =>
      if errnos.all (fun n => ¬ retryableErrnos.contains n) then some .reraise
      else some .retry
  else some .retry

/-- The retry counter of `TCPGraphite.connect`: starts at 0, incremented
after each failed attempt, reset to 0 once it passes 3. -/
def backoffIndex : Nat → Nat
  | 0 => 0
  | n + 1 => let i := backoffIndex n + 1; if i > 3 then 0 else i

/-- Backoff delay before retrying attempt `n` (0-based): `2 ** index`. -/
def backoffDelay (n : Nat) : Nat := 2 ^ backoffIndex n

/-! ## PF queue-status parser (`pfstatsd/pf.py`) -/

/-- `pf.QueueMetrics` namedtuple; metric values are `Rat` (ints and the
ratio floats the parser produces are both exact rationals). -/
structure QueueMetrics where
  name : String
  children : List String
  metrics : List (String × Rat)
  parent : Option String
deriving DecidableEq

/-- `pf.METRIC_ALIASES`. -/
def METRIC_ALIASES : List (String × String) := [("qlength", "queue_load_factor")]

/-- `METRIC_ALIASES.get(name, name)`. -/
def aliasOf (s : String) : String := (alookup METRIC_ALIASES s).getD s

/-- The value conversion in `parse_metric`: a string containing `/`
becomes `int(before) / float(after)` (both tolerate surrounding
whitespace), anything else `int(value, 10)`. -/
def parseValueChars (cs : List Char) : Option Rat :=
  if cs.contains '/' then
    let before := cs.takeWhile (fun c => c ≠ '/')
    let after := (cs.dropWhile (fun c => c ≠ '/')).drop 1
    match digitsToNat? (stripWs before), digitsToNat? (stripWs after) with
    | some a, some b => some ((a : Rat) / (b : Rat))
    | _, _ => none
  else (digitsToNat? cs).map (fun n => (n : Rat))

/-- Scanner state of `parse_metric`'s character loop. -/
structure PMState where
  has_metric_name : Bool
  metric_name : Option String
  has_metric_value : Bool
  buf : List Char
  metrics : List (String × Rat)
  prev_char : Option Char
deriving DecidableEq

/-- Name-close action at a `:` in `parse_metric`. When the previous
metric name ends in `pkts` the pending key inherits it as a prefix
(`buf.insert(0, metric_name)`, with a space inserted when `buf[1]` would
not be one; an empty pending buffer would make `buf[1]` an `IndexError`).
The joined key is stripped, spaces become underscores, and the alias map
is applied. -/
def pmCloseName (st : PMState) : Option PMState :=
  let joined : Option (List Char) :=
    match st.metric_name with
    | some mn =>
      if mn ≠ "" ∧ strEndsWith mn "pkts" then
        match st.buf with
        | [] => none
        | b0 :: _ =>
          some (mn.data ++ (if b0 ≠ ' ' then [' '] else []) ++ st.buf)
      else some st.buf
    | none => some st.buf
  match joined with
  | none => none
  | some cs =>
    let nm := aliasOf (String.mk ((stripWs cs).map (fun c => if c = ' ' then '_' else c)))
    some { st with has_metric_name := true, metric_name := some nm, buf := [] }

/-- One character step of `parse_metric`'s loop, in source order: the
name-close branch on an unconsumed `:`; the digit branch that opens a
value (and falls through to the append); the value-close branch on a
space not preceded by `/`; the default append. `prev_char` is only
updated on the append paths, matching the `continue`s. -/
def pmStep (st : PMState) (c : Char) : Option PMState :=
  if c = ':' ∧ st.has_metric_name = false then pmCloseName st
  else if c.isDigit ∧ st.has_metric_value = false ∧ st.has_metric_name = true then
    some { st with has_metric_value := true, buf := st.buf ++ [c], prev_char := some c }
  else if st.has_metric_value = true ∧ c = ' ' ∧ st.prev_char ≠ some '/' then
    match st.metric_name with
    | none => none
    | some mn =>
      match parseValueChars (stripWs st.buf) with
      | none => none
      | some v =>
        some { st with has_metric_value := false, has_metric_name := false,
                       metrics := aset st.metrics mn v, buf := [] }
  else some { st with buf := st.buf ++ [c], prev_char := some c }

/-- Run the scanner over a character list. -/
def pmRun : PMState → List Char → Option PMState
  | st, [] => some st
  | st, c :: rest =>
    match pmStep st c with
    | none => none
    | some st' => pmRun st' rest

/-- `pf.parse_metric(line)`: scan `line[1:-1]` and return the metric
mapping; `none` models the exceptions Python raises on malformed lines. -/
def parse_metric (line : String) : Option (List (String × Rat)) :=
  let inner := (line.data.drop 1).dropLast
  let st0 : PMState :=
    { has_metric_name := false, metric_name := none, has_metric_value := false,
      buf := [], metrics := [], prev_char := none }
  (pmRun st0 inner).map (fun st => st.metrics)

def lbrace : Char := Char.ofNat 123
def rbrace : Char := Char.ofNat 125

/-- The characters after the last occurrence of `target`, `none` when it
never occurs (Python `str.rindex` raises `ValueError`). -/
def charsAfterLast (target : Char) : List Char → Option (List Char)
  | [] => none
  | c :: rest =>
    match charsAfterLast target rest with
    | some r => some r
    | none => if c = target then some rest else none

/-- Queue-name extraction in `parse_queue`: skip the leading spaces after
`queue `, then take characters up to the next space. -/
def parseHeaderName (cs : List Char) : List Char :=
  (cs.dropWhile (fun c => c = ' ')).takeWhile (fun c => c ≠ ' ')

/-- One line of `pf.parse_queue`'s loop over `(queues, current_queue)`:
a stripped `queue ` header registers a node (children from the trailing
brace list when the line ends in one), a `[ ` metric line updates the
current node's metrics in place. -/
def pqStep (acc : List (String × QueueMetrics) × Option String) (rawLine : String) :
    Option (List (String × QueueMetrics) × Option String) :=
  if rawLine = "" then some acc
  else
    let queues := acc.1
    let current := acc.2
    let line := strTrim rawLine
    if strStartsWith line "queue " then
      let name := String.mk
        ((parseHeaderName (line.data.drop 6)).map (fun c => if c = ' ' then '_' else c))
      let children : Option (List String) :=
        if strEndsWith line (String.mk [rbrace]) then
          match charsAfterLast lbrace line.data with
          | none => none
          | some tailChars => some (strSplitOn (String.mk tailChars.dropLast) ", ")
        else some []
      match children with
      | none => none
      | some cs =>
        some (aset queues name
          { name := name, children := cs, metrics := [], parent := none }, some name)
    else if strStartsWith line "[ " then
      match current with
      | none => none
      | some cur =>
        match alookup queues cur with
        | none => none
        | some q =>
          match parse_metric line with
          | none => none
          | some parsed =>
            let m' := parsed.foldl (fun m kv => aset m kv.1 kv.2) q.metrics
            some (aset queues cur { q with metrics := m' }, current)
    else some acc

/-- `pf.parse_queue(stdout)` over the already-split lines of the command
output (the splitting itself is Python `str.splitlines`). -/
def parse_queue (lines : List String) : Option (List (String × QueueMetrics)) :=
  let rec go (acc : List (String × QueueMetrics) × Option String) :
      List String → Option (List (String × QueueMetrics) × Option String)
    | [] => some acc
    | l :: rest =>
      match pqStep acc l with
      | none => none
      | some acc' => go acc' rest
  (go ([], none) lines).map (fun acc => acc.1)

/-! ## Parent assignment and aggregation (`pf.apply_parents`,
`pf.summarize_children`) -/

/-- The inner `for child_name in queue.children` loop of `apply_parents`
for the node named `pname`: look each child up in the *input* map,
assert its (input) parent slot is `None`, and yield the reparented copy.
`none` models the `KeyError`/`AssertionError`. -/
def apChildYields (queues : List (String × QueueMetrics)) (pname : String) :
    List String → Option (List (String × QueueMetrics))
  | [] => some []
  | c :: cs =>
    match alookup queues c with
    | none => none
    | some cq =>
      if cq.parent ≠ none then none
      else
        match apChildYields queues pname cs with
        | none => none
        | some more => some ((c, { cq with parent := some pname }) :: more)

/-- The outer loop of `apply_parents`, yielding reparented children in
map order. -/
def apMainYields (queues : List (String × QueueMetrics)) :
    List (String × QueueMetrics) → Option (List (String × QueueMetrics))
  | [] => some []
  | (n, q) :: rest =>
    match apChildYields queues n q.children, apMainYields queues rest with
    | some ys, some more => some (ys ++ more)
    | _, _ => none

/-- `pf.apply_parents(queues)` collected to a list: the reparented
children first, then the never-claimed keys (`queues.keys() -
reparented_keys`, taken here in map order) with their original entries. -/
def apply_parents (queues : List (String × QueueMetrics)) :
    Option (List (String × QueueMetrics)) :=
  match apMainYields queues queues with
  | none => none
  | some ys =>
    let reparented := ys.map (fun kv => kv.1)
    some (ys ++ queues.filter (fun kv => ¬ reparented.contains kv.1))

/-- Python `dict(generator)`: later pairs overwrite earlier ones. -/
def dictOf (ys : List (String × QueueMetrics)) : List (String × QueueMetrics) :=
  ys.foldl (fun acc kv => aset acc kv.1 kv.2) []

/-- `queues[parent].metrics[k] += v` for every `(k, v)` of a leaf's
metrics; `none` on a missing key (`KeyError`). -/
def addMetricsTo (m : List (String × Rat)) : List (String × Rat) →
    Option (List (String × Rat))
  | [] => some m
  | (k, v) :: rest =>
    match alookup m k with
    | none => none
    | some old => addMetricsTo (aset m k (old + v)) rest

/-- The `while node.parent` walk of `summarize_children` phase 1: add the
leaf's metric values into each ancestor in turn. `fuel` bounds the walk;
on a forest a chain is shorter than the node count (Python would loop
forever on a cycle, which the claims exclude). -/
def ascendAdd (fuel : Nat) (queues : List (String × QueueMetrics))
    (leafMetrics : List (String × Rat)) (node : QueueMetrics) :
    Option (List (String × QueueMetrics)) :=
  match fuel with
  | 0 => none
  | fuel' + 1 =>
    match node.parent with
    | none => some queues
    | some pname =>
      match alookup queues pname with
      | none => none
      | some pq =>
        match addMetricsTo pq.metrics leafMetrics with
        | none => none
        | some m' =>
          let pq' := { pq with metrics := m' }
          ascendAdd fuel' (aset queues pname pq') leafMetrics pq'

/-- Phase 1 of `summarize_children`: one upward walk per leaf, in map
order. -/
def sumPhase1 (fuel : Nat) (queues : List (String × QueueMetrics)) :
    List QueueMetrics → Option (List (String × QueueMetrics))
  | [] => some queues
  | leaf :: rest =>
    match ascendAdd fuel queues leaf.metrics leaf with
    | none => none
    | some q' => sumPhase1 fuel q' rest

/-- Phase 2 of `summarize_children`: the FIFO stack loop that divides
each reachable parent's `queue_load_factor` by its direct child count
exactly once, guarded by the `averaged_nodes` set, then pushes the
parent. -/
def sumPhase2 (fuel : Nat) (queues : List (String × QueueMetrics))
    (averaged : List String) (stack : List QueueMetrics) :
    Option (List (String × QueueMetrics)) :=
  match fuel with
  | 0 => none
  | fuel' + 1 =>
    match stack with
    | [] => some queues
    | node :: stackRest =>
      match node.parent with
      | none => sumPhase2 fuel' queues averaged stackRest
      | some pname =>
        match alookup queues pname with
        | none => none
        | some parent =>
          if averaged.contains parent.name then
            sumPhase2 fuel' queues averaged stackRest
          else
            match alookup parent.metrics "queue_load_factor" with
            | none => none
            | some qlf =>
              let m' := aset parent.metrics "queue_load_factor"
                (qlf / (parent.children.length : Rat))
              let parent' := { parent with metrics := m' }
              sumPhase2 fuel' (aset queues pname parent')
                (parent.name :: averaged) (stackRest ++ [parent'])

/-- `pf.summarize_children(queues)`. `edges` are the leaves (no
children) in map order; fuel is sized so that it never runs out on a
forest. -/
def summarize_children (queues : List (String × QueueMetrics)) :
    Option (List (String × QueueMetrics)) :=
  let edges := (queues.filter (fun kv => kv.2.children.isEmpty)).map (fun kv => kv.2)
  match sumPhase1 (queues.length + 1) queues edges with
  | none => none
  | some q1 =>
    sumPhase2 (edges.length + 2 * queues.length + 2) q1 [] edges

/-! ## Probe engine (`pfstatsd/ping.py`) -/

/-- A round-trip time: a finite number of milliseconds or the
`float('inf')` loss sentinel. -/
inductive TimeMs where
  | fin : Rat → TimeMs
  | inf : TimeMs
deriving DecidableEq

/-- `ping.ICMPResponse` namedtuple. -/
structure ICMPResponse where
  host : Option String
  time_ms : TimeMs
  icmp_seq : Int
  ttl : Int
  packet_size_bytes : Option Int
deriving DecidableEq

/-- `ICMPResponse.lost`: `host is None or math.isinf(time_ms)`. -/
def ICMPResponse.lost (p : ICMPResponse) : Bool :=
  p.host.isNone || decide (p.time_ms = TimeMs.inf)

/-- Python `range(a, b)` over integers. -/
def intRange (a b : Int) : List Int :=
  (List.range (b - a).toNat).map (fun i : Nat => a + (i : Int))

/-- The synthesized lost-packet event `ICMPResponse(ip, float('inf'),
seq, 0, None)` the gap loop yields. -/
def lostEvent (ip : String) (seq : Int) : ICMPResponse :=
  { host := some ip, time_ms := TimeMs.inf, icmp_seq := seq, ttl := 0,
    packet_size_bytes := none }

/-- The events `ping` yields for one parsed `ICMPResponse` line, from the
body of its read loop: a lost packet gets its host replaced by the
resolved `ip`; when a previous sequence number exists and the new one
exceeds it by more than 1, one synthesized lost event per skipped
sequence number is yielded (in `range` order) before the packet itself. -/
def emitForPacket (ip : String) (last : Option Int) (p : ICMPResponse) :
    List ICMPResponse :=
  let p1 := if p.lost then { p with host := some ip } else p
  let synth :=
    match last with
    | none => []
    | some l =>
      if p1.icmp_seq - l > 1 then (intRange (l + 1) p1.icmp_seq).map (lostEvent ip)
      else []
  synth ++ [p1]

/-- The full event stream `ping` yields for a list of parsed packet
lines, threading `last_seq_index` (updated to each parsed packet's
sequence number after it is yielded). -/
def pingEmit (ip : String) (last : Option Int) : List ICMPResponse → List ICMPResponse
  | [] => []
  | p :: rest => emitForPacket ip last p ++ pingEmit ip (some p.icmp_seq) rest

/-- `ping.Unit` enum (named `TimeUnit` here; `Unit` is taken by Lean). -/
inductive TimeUnit where
  | seconds : TimeUnit
  | packets : TimeUnit
deriving DecidableEq

/-- `ping.ExitAfterPolicy`; `other_policies` holds the policies combined
via `__or__` (which appends the new policy, dropping that policy's own
`other_policies`, exactly as the source tuple concatenation does). -/
structure ExitAfterPolicy where
  value : Rat
  unit : TimeUnit
  other_policies : List ExitAfterPolicy

/-- `ExitAfterPolicy._poll(time_elapsed, num_packets)`: one policy's own
threshold test. -/
def subPoll (value : Rat) (unit : TimeUnit) (time_elapsed : Rat)
    (num_packets : Nat) : Bool :=
  match unit with
  | .packets => decide ((num_packets : Rat) ≥ value)
  | .seconds => decide (time_elapsed ≥ value)

/-- `ExitAfterPolicy.poll`: the conjunction of the policy's own `_poll`
and every combined policy's `_poll`. -/
def ExitAfterPolicy.poll (p : ExitAfterPolicy) (time_elapsed : Rat)
    (num_packets : Nat) : Bool :=
  subPoll p.value p.unit time_elapsed num_packets &&
    p.other_policies.all (fun q => subPoll q.value q.unit time_elapsed num_packets)

/-- `ExitAfterPolicy.__or__`. -/
def ExitAfterPolicy.orPolicy (p q : ExitAfterPolicy) : ExitAfterPolicy :=
  { value := p.value, unit := p.unit, other_policies := p.other_policies ++ [q] }

/-- `should_exit` in `ping`: always false without a policy, else
`exit_after.poll`. -/
def shouldExit : Option ExitAfterPolicy → Rat → Nat → Bool
  | none, _, _ => false
  | some p, e, n => p.poll e n

/-- The read loop of `ping` over a list of parsed packet lines:
`should_exit(elapsed, packet_count)` is checked before each read;
one parsed line per iteration yields its events and then increments
`packet_count` by one (synthesized gap events are yielded but never
counted) and updates `last_seq_index`; an exhausted stream is the
`program_exited` break. `elapsedAt i` is the wall-clock elapsed time at
the `i`-th loop check. Returns the yielded events and the final
`packet_count`. -/
def pingRunAux (pol : Option ExitAfterPolicy) (elapsedAt : Nat → Rat)
    (ip : String) (lines : List ICMPResponse) (step : Nat) (count : Nat)
    (last : Option Int) : List ICMPResponse × Nat :=
  if shouldExit pol (elapsedAt step) count then ([], count)
  else
    match lines with
    | [] => ([], count)
    | p :: rest =>
      let evs := emitForPacket ip last p
      let r := pingRunAux pol elapsedAt ip rest (step + 1) (count + 1) (some p.icmp_seq)
      (evs ++ r.1, r.2)

/-! ## Concrete fixtures used by the theorems below -/

/-- A freshly constructed session with the constructor defaults
(`port=2004, namespace='', queue_max=100, delay_max=10`). -/
def sessFresh : Session :=
  { host := "h", port := 2004, nsp := "", queue := [], queue_max := 100,
    delay_max := 10, last_flush_ts := -1 }

/-- A fresh session with a pathologically large (but valid) `delay_max`. -/
def sessHugeDelay : Session :=
  { host := "h", port := 2004, nsp := "", queue := [], queue_max := 100,
    delay_max := 1800000000, last_flush_ts := -1 }

/-- A concrete stand-in serializer for witnesses and counterexamples. -/
def demoDumps : List MetricEntry → List Nat := fun _ => [7]

/-- The metric lines of the C8 parsing example. -/
def c8Lines : List String :=
  ["queue root on ext0 ... \x7ba, b\x7d",
   "[ pkts: 10  bytes: 200  dropped pkts: 0 bytes: 0 ]",
   "[ qlength: 1/50 ]"]

/-- The queue map where node `c` is claimed as a child by both `a` and
`b`. -/
def c9DoubleParent : List (String × QueueMetrics) :=
  [("a", { name := "a", children := ["c"], metrics := [], parent := none }),
   ("b", { name := "b", children := ["c"], metrics := [], parent := none }),
   ("c", { name := "c", children := [], metrics := [], parent := none })]

/-- A proper forest input (the shape of the repository's
`test_apply_parents`). -/
def c9Forest : List (String × QueueMetrics) :=
  [("root", { name := "root", children := ["group"], metrics := [], parent := none }),
   ("group", { name := "group", children := ["child_a", "child_b"], metrics := [], parent := none }),
   ("child_a", { name := "child_a", children := [], metrics := [], parent := none }),
   ("child_b", { name := "child_b", children := [], metrics := [], parent := none })]

unseal Rat.mul Rat.inv Rat.add Rat.sub in
/-- C8: parsing the header `queue root on ext0 ... {a, b}` together with
the two metric lines yields one node named `root` with children
`(a, b)` and metrics `{pkts: 10, pkts_bytes: 200, dropped_pkts: 0,
dropped_pkts_bytes: 0, queue_load_factor: 0.02}`: a `pkts` sub-metric
followed by a `bytes` sub-metric becomes the keys `<name>` and
`<name>_bytes`, the ratio `1/50` becomes the float `0.02`, and
`qlength` is remapped to `queue_load_factor`. -/
theorem c8_parse_example :
    parse_queue c8Lines = some [("root",
      { name := "root", children := ["a", "b"],
        metrics := [("pkts", 10), ("pkts_bytes", 200), ("dropped_pkts", 0),
                    ("dropped_pkts_bytes", 0), ("queue_load_factor", 1 / 50)],
        parent := none })] ∧
    parse_metric "[ pkts: 10  bytes: 200  dropped pkts: 0 bytes: 0 ]" =
      some [("pkts", 10), ("pkts_bytes", 200), ("dropped_pkts", 0),
            ("dropped_pkts_bytes", 0)] ∧
    parse_metric "[ qlength: 1/50 ]" = some [("queue_load_factor", 1 / 50)] := by
  decide

/-- C9: on the input where `c` is declared a child of both `a` and `b`,
`apply_parents` does *not* fail its assertion (the assert inspects the
never-mutated input map, whose parent slots stay `None`); it silently
yields `c` twice and the `dict(...)` conversion keeps the last claimant,
diverging from the claim. On a proper forest input the parent
back-references are assigned to the owning nodes and unclaimed nodes
keep no parent. -/
theorem c9_apply_parents_double_claim :
    apply_parents c9DoubleParent =
      some [("c", { name := "c", children := [], metrics := [], parent := some "a" }),
            ("c", { name := "c", children := [], metrics := [], parent := some "b" }),
            ("a", { name := "a", children := ["c"], metrics := [], parent := none }),
            ("b", { name := "b", children := ["c"], metrics := [], parent := none })] ∧
    alookup (dictOf ((apply_parents c9DoubleParent).getD [])) "c" =
      some { name := "c", children := [], metrics := [], parent := some "b" } ∧
    (apply_parents c9Forest).map dictOf =
      some [("group", { name := "group", children := ["child_a", "child_b"], metrics := [], parent := some "root" }),
            ("child_a", { name := "child_a", children := [], metrics := [], parent := some "group" }),
            ("child_b", { name := "child_b", children := [], metrics := [], parent := some "group" }),
            ("root", { name := "root", children := ["group"], metrics := [], parent := none })] := by
  decide

/-- A session whose buffer holds one metric. -/
def sessOne : Session :=
  { host := "h", port := 2004, nsp := "", queue := [("k", (PyNum.finite 1, PyNum.int 2))],
    queue_max := 100, delay_max := 10, last_flush_ts := -1 }

unseal Rat.mul Rat.inv Rat.add Rat.sub in
/-- C1 counterexample: the valid tuple `("k", 1, 0)` posted at wall time
999 is stored — and then serialized by `_flush` — as the pair
`("k", (999, 1))`: the falsy timestamp `0` is replaced by the current
time (`timestamp or time.time()`), so the wire payload does not contain
the posted `(timestamp, value)` pair. -/
theorem c1_counterexample :
    appendMetric sessFresh "k" (.num (.int 1)) (some (.int 0)) none 999 =
      .ok { sessFresh with queue := [("k", (.finite 999, .int 1))] } ∧
    (flushRun demoDumps true
        { sessFresh with queue := [("k", (.finite 999, .int 1))] } 999).2 =
      .sent [("k", (.finite 999, .int 1))] [0, 0, 0, 1, 7] 1 ∧
    (PyNum.finite 999 : PyNum) ≠ PyNum.int 0 := by
  decide

/-- C1 (amended): for a valid metric with a truthy (non-zero) timestamp
posted into an empty buffer and then flushed over a working transport,
the wire message is exactly the 4-byte big-endian encoding of the
payload length followed by the payload serialized from exactly the
single namespaced `(name, (timestamp, value))` pair; the buffer is left
empty (no loss, no duplication). A zero timestamp is instead replaced by
the current time. -/
theorem c1_post_flush_delivery
    (dumps : List MetricEntry → List Nat) (s : Session) (hq : s.queue = [])
    (name : String) (v : PyNum) (t : PyNum) (nsArg : Option String)
    (hs : name.data.contains ' ' = false) (hn : name ≠ "") (ht : t.truthy = true)
    (now now2 : Rat)
    (hlen : (dumps [(resolvedName s.nsp nsArg name, (t, v))]).length < 4294967296) :
    appendMetric s name (.num v) (some t) nsArg now =
      .ok { s with queue := [(resolvedName s.nsp nsArg name, (t, v))] } ∧
    flushRun dumps true { s with queue := [(resolvedName s.nsp nsArg name, (t, v))] } now2 =
      ({ s with queue := [], last_flush_ts := now2 },
       .sent [(resolvedName s.nsp nsArg name, (t, v))]
         (packBE4 (dumps [(resolvedName s.nsp nsArg name, (t, v))]).length ++
           dumps [(resolvedName s.nsp nsArg name, (t, v))]) 1) ∧
    (packBE4 (dumps [(resolvedName s.nsp nsArg name, (t, v))]).length).length = 4 ∧
    unpackBE4 (packBE4 (dumps [(resolvedName s.nsp nsArg name, (t, v))]).length) =
      (dumps [(resolvedName s.nsp nsArg name, (t, v))]).length := by
  have hs' : ' ' ∉ name.data := by simpa using hs
  refine ⟨?_, ?_, packBE4_length _, unpackBE4_packBE4 _ hlen⟩
  · simp [appendMetric, hs', hn, ht, hq]
  · simp [flushRun, packL, hlen]

/-- Witness for C1 (amended) at a concrete session and metric. -/
theorem c1_witness :
    appendMetric sessFresh "k" (.num (.int 1)) (some (.int 123)) none 5 =
      .ok { sessFresh with queue := [(resolvedName sessFresh.nsp none "k", (.int 123, .int 1))] } ∧
    flushRun demoDumps true
        { sessFresh with queue := [(resolvedName sessFresh.nsp none "k", (.int 123, .int 1))] }
        9 =
      ({ sessFresh with queue := [], last_flush_ts := 9 },
       .sent [(resolvedName sessFresh.nsp none "k", (.int 123, .int 1))]
         (packBE4 (demoDumps [(resolvedName sessFresh.nsp none "k", (.int 123, .int 1))]).length ++
           demoDumps [(resolvedName sessFresh.nsp none "k", (.int 123, .int 1))]) 1) ∧
    (packBE4 (demoDumps [(resolvedName sessFresh.nsp none "k", (.int 123, .int 1))]).length).length = 4 ∧
    unpackBE4 (packBE4 (demoDumps [(resolvedName sessFresh.nsp none "k", (.int 123, .int 1))]).length) =
      (demoDumps [(resolvedName sessFresh.nsp none "k", (.int 123, .int 1))]).length :=
  c1_post_flush_delivery demoDumps sessFresh rfl "k" (.int 1) (.int 123) none
    (by decide) (by decide) (by decide) 5 9 (by decide)

/-- C2: when `transport.write` raises an `IOError` inside `_flush`, the
resulting buffer is the flushed snapshot followed by the metrics
appended during the send (necessarily none: the snapshot, truncation and
re-insertion are synchronous, so the remainder is empty and the whole
original buffer is restored), the error propagates to the caller, and
`last_flush_ts` is not updated. -/
theorem c2_flush_failure_requeues
    (dumps : List MetricEntry → List Nat) (s : Session) (now : Rat)
    (hlen : (dumps s.queue).length < 4294967296) :
    (flushRun dumps false s now).1.queue =
      s.queue.take s.queue.length ++ s.queue.drop s.queue.length ∧
    s.queue.drop s.queue.length = [] ∧
    (flushRun dumps false s now).2 = FlushOutcome.ioError ∧
    (flushRun dumps false s now).1.last_flush_ts = s.last_flush_ts := by
  have htake : s.queue.take s.queue.length = s.queue := List.take_length s.queue
  have hdrop : s.queue.drop s.queue.length = [] := List.drop_length s.queue
  refine ⟨?_, hdrop, ?_, ?_⟩ <;>
    simp [flushRun, packL, htake, hdrop, hlen]

/-- Witness for C2 at a concrete one-element buffer. -/
theorem c2_witness :
    (flushRun demoDumps false sessOne 5).1.queue =
      sessOne.queue.take sessOne.queue.length ++ sessOne.queue.drop sessOne.queue.length ∧
    sessOne.queue.drop sessOne.queue.length = [] ∧
    (flushRun demoDumps false sessOne 5).2 = FlushOutcome.ioError ∧
    (flushRun demoDumps false sessOne 5).1.last_flush_ts = sessOne.last_flush_ts :=
  c2_flush_failure_requeues demoDumps sessOne 5 (by decide)

unseal Rat.mul Rat.inv Rat.add Rat.sub in
/-- C7 counterexample: a name containing a tab (whitespace that is not a
space) and the non-finite value `float('inf')` are both accepted and
appended to the buffer — the code only checks `' ' not in name` and
`isinstance(value, (int, float))`, so the claim's whitespace and
finiteness rejections do not hold. -/
theorem c7_counterexample :
    appendMetric sessFresh "a\tb" (.num .posInf) none none 5 =
      .ok { sessFresh with queue := [("a\tb", (.finite 5, .posInf))] } ∧
    ("a\tb".data.contains '\t' = true ∧ Char.isWhitespace '\t' = true) ∧
    (PyNum.posInf : PyNum) ≠ PyNum.int 0 := by
  decide

/-- C7 (amended): `_append_metric` rejects — with the buffer untouched,
since the asserts precede the append — exactly the names containing a
space character, the empty name, and the values that are not
`int`/`float` instances; every accepted call appends exactly one entry
at the end of the buffer. Whitespace other than `' '` and the
non-finite floats `inf`/`nan` are accepted. -/
theorem c7_validation
    (s : Session) (name : String) (value : PyVal) (timestamp : Option PyNum)
    (nsArg : Option String) (now : Rat) :
    ((∃ e, appendMetric s name value timestamp nsArg now = .error e) ↔
      (name.data.contains ' ' = true ∨ name = "" ∨ ∀ v, value ≠ PyVal.num v)) ∧
    (∀ s1, appendMetric s name value timestamp nsArg now = .ok s1 →
      ∃ entry, s1.queue = s.queue ++ [entry]) := by
  unfold appendMetric
  cases hb : name.data.contains ' ' with
  | true =>
    refine ⟨⟨fun _ => Or.inl rfl, fun _ => ⟨_, rfl⟩⟩, ?_⟩
    intro s1 h
    simp at h
  | false =>
    by_cases hn : name = ""
    · subst hn
      refine ⟨⟨fun _ => Or.inr (Or.inl rfl), fun _ => ⟨_, rfl⟩⟩, ?_⟩
      intro s1 h
      simp at h
    · rw [if_neg hn]
      cases value with
      | num v =>
        refine ⟨⟨fun he => ?_, fun hr => ?_⟩, ?_⟩
        · rcases he with ⟨e, he⟩
          simp at he
        · rcases hr with h1 | h2 | h3
          · exact absurd h1 (by simp)
          · exact absurd h2 hn
          · exact absurd rfl (h3 v)
        · intro s1 h
          injection h with h2
          subst h2
          exact ⟨_, rfl⟩
      | str t =>
        refine ⟨⟨fun _ => Or.inr (Or.inr (by intro w h; cases h)), fun _ => ⟨_, rfl⟩⟩, ?_⟩
        intro s1 h
        simp at h
      | noneV =>
        refine ⟨⟨fun _ => Or.inr (Or.inr (by intro w h; cases h)), fun _ => ⟨_, rfl⟩⟩, ?_⟩
        intro s1 h
        simp at h

/-- Witness for C7 at concrete inputs. -/
theorem c7_witness :
    ((∃ e, appendMetric sessFresh "x y" (.num (.int 1)) none none 5 = .error e) ↔
      ("x y".data.contains ' ' = true ∨ "x y" = "" ∨
        ∀ v, PyVal.num (PyNum.int 1) ≠ PyVal.num v)) ∧
    (∀ s1, appendMetric sessFresh "x y" (.num (.int 1)) none none 5 = .ok s1 →
      ∃ entry, s1.queue = sessFresh.queue ++ [entry]) :=
  c7_validation sessFresh "x y" (.num (.int 1)) none none 5

unseal Rat.mul Rat.inv Rat.add Rat.sub in
/-- C10 counterexample: a freshly constructed session with the valid
enabled `delay_max = 1800000000` (about 57 years) does not flush on its
first post at wall time 1700000000 even though `last_flush_ts = -1`:
`now - (-1) >= delay_max` fails, and the default `queue_max = 100` is
not reached either. -/
theorem c10_counterexample :
    Session.init "h" 2004 "" 100 1800000000 = .ok sessHugeDelay ∧
    postTriggersFlush sessHugeDelay "k" (.num (.int 1)) (some (.int 123)) none
      1700000000 = .ok false := by
  decide

/-- C10 (amended): for every freshly constructed session with `delay_max`
enabled and `delay_max ≤ now + 1` (any feasible configuration: wall time
`now` is the seconds-since-epoch clock), the very first post triggers an
immediate flush regardless of `queue_max` and of the posted timestamp,
because `last_flush_ts` is initialized to `-1` and therefore
`now - last_flush_ts = now + 1 ≥ delay_max`. -/
theorem c10_first_post_flushes
    (host : String) (port : Int) (nsp : String) (queue_max : Int) (delay_max : Rat)
    (s : Session) (hinit : Session.init host port nsp queue_max delay_max = .ok s)
    (now : Rat) (hdm : delay_max ≠ -1) (hnow : delay_max ≤ now + 1)
    (name : String) (v : PyNum) (timestamp : Option PyNum) (nsArg : Option String)
    (hs : name.data.contains ' ' = false) (hn : name ≠ "") :
    postTriggersFlush s name (.num v) timestamp nsArg now = .ok true := by
  have hs' : ' ' ∉ name.data := by simpa using hs
  unfold Session.init at hinit
  repeat' split at hinit
  all_goals first
    | exact Except.noConfusion hinit
    | (injection hinit with h2
       subst h2
       have hge : delay_max ≤ now - (-1 : Rat) := by linarith
       simp [postTriggersFlush, appendMetric, Except.map, hs', hn, shouldFlushAfterPost,
             hdm, hge, hnow])

/-- Witness for C10 (amended) at the default configuration. -/
theorem c10_witness :
    postTriggersFlush sessFresh "k" (.num (.int 1)) (some (.int 123)) none
      1700000000 = .ok true :=
  c10_first_post_flushes "h" 2004 "" 100 10 sessFresh (by decide) 1700000000
    (by decide) (by norm_num) "k" (.int 1) (some (.int 123)) none
    (by decide) (by decide)

/-- C6 counterexample: a single `OSError` with errno 65 (`EHOSTUNREACH`,
not in the retryable refused/reset/aborted class) is *retried* by the
connect handler, not propagated: the fatal path is only reachable for
messages starting `Multiple exceptions: `. -/
theorem c6_counterexample :
    connectErrorAction "[Errno 65] No route to host" = some ConnectAction.retry ∧
    retryableErrnos.contains 65 = false := by
  decide

/-- C6 (amended): the connect handler re-raises only an aggregated
`Multiple exceptions: ` OS error none of whose parsed errnos is in the
retryable class; every other caught `ConnectionError`/`OSError` —
including single OS errors of any errno — is retried, with backoff
delays `2^attempt` cycling `1, 2, 4, 8`. -/
theorem c6_retry_classification (msg : String) :
    (strStartsWith msg multiExcMark = false →
      connectErrorAction msg = some ConnectAction.retry) ∧
    (∀ errnos, strStartsWith msg multiExcMark = true →
      parseErrnosFromParts (strSplitOn (strDrop msg multiExcMark.data.length) ",") =
        some errnos →
      (connectErrorAction msg = some ConnectAction.reraise ↔
        ∀ n ∈ errnos, ¬ n ∈ retryableErrnos)) ∧
    (List.range 8).map backoffDelay = [1, 2, 4, 8, 1, 2, 4, 8] := by
  refine ⟨?_, ?_, by decide⟩
  · intro h
    simp [connectErrorAction, h]
  · intro errnos hsw hp
    simp only [connectErrorAction, hsw, if_true, hp]
    by_cases hall : errnos.all (fun n => ¬ retryableErrnos.contains n) = true
    · rw [if_pos hall]
      constructor
      · intro _ n hn
        have := List.all_eq_true.mp hall n hn
        simpa using this
      · intro _
        rfl
    · rw [if_neg hall]
      constructor
      · intro hcon
        exact ConnectAction.noConfusion (Option.some.inj hcon)
      · intro hforall
        exact absurd (List.all_eq_true.mpr (fun n hn => by simpa using hforall n hn)) hall

/-- Witness for C6 (amended) on a concrete aggregated message (only the
first comma-part starts with `[Errno` — the later ones begin with a
space — so the parsed errno set is `[65]`). -/
theorem c6_witness :
    connectErrorAction "Multiple exceptions: [Errno 65] No route to host, [Errno 64] x" =
        some ConnectAction.reraise ↔
      ∀ n ∈ ([65] : List Int), ¬ n ∈ retryableErrnos :=
  (c6_retry_classification
      "Multiple exceptions: [Errno 65] No route to host, [Errno 64] x").2.1
    [65] (by decide) (by decide)

/-! ## Range facts used for the probe sequence-number claims -/

theorem intRange_eq_nil (a b : Int) (h : b ≤ a) : intRange a b = [] := by
  unfold intRange
  have h0 : (b - a).toNat = 0 := by omega
  rw [h0]
  rfl

theorem intRange_self (a : Int) : intRange a a = [] :=
  intRange_eq_nil a a le_rfl

theorem intRange_concat (a b : Int) (h : a ≤ b) :
    intRange a b ++ [b] = intRange a (b + 1) := by
  unfold intRange
  have h1 : (b + 1 - a).toNat = (b - a).toNat + 1 := by omega
  rw [h1, List.range_succ, List.map_append]
  simp only [List.map_cons, List.map_nil, List.append_cancel_left_eq, List.cons.injEq,
    and_true]
  omega

theorem intRange_singleton (a : Int) : intRange a (a + 1) = [a] := by
  rw [← intRange_concat a a le_rfl, intRange_self]
  rfl

theorem intRange_cons (a b : Int) (h : a < b) :
    a :: intRange (a + 1) b = intRange a b := by
  unfold intRange
  have h1 : (b - a).toNat = (b - (a + 1)).toNat + 1 := by omega
  rw [h1, List.range_succ_eq_map, List.map_cons, List.map_map]
  simp only [Nat.cast_zero, add_zero, List.cons.injEq, true_and]
  apply List.map_congr_left
  intro i _
  simp only [Function.comp_apply, Nat.succ_eq_add_one]
  push_cast
  ring

theorem intRange_append_aux (n : Nat) :
    ∀ (a b c : Int), b - a = n → a ≤ b → b ≤ c →
      intRange a b ++ intRange b c = intRange a c := by
  induction n with
  | zero =>
    intro a b c h1 _ _
    have hab : a = b := by omega
    subst hab
    rw [intRange_self, List.nil_append]
  | succ m ih =>
    intro a b c h1 h2 h3
    have hab : a < b := by omega
    have hac : a < c := by omega
    rw [← intRange_cons a b hab, ← intRange_cons a c hac, List.cons_append,
        ih (a + 1) b c (by omega) (by omega) h3]

theorem intRange_append (a b c : Int) (hab : a ≤ b) (hbc : b ≤ c) :
    intRange a b ++ intRange b c = intRange a c :=
  intRange_append_aux (b - a).toNat a b c (by omega) hab hbc

theorem intRange_pairwise (a b : Int) :
    List.Pairwise (fun x y => x < y) (intRange a b) := by
  unfold intRange
  rw [List.pairwise_map]
  apply List.Pairwise.imp ?_ (List.pairwise_lt_range _)
  intro i j hij
  omega

/-! ## Sequence-chain bookkeeping for the probe engine -/

/-- Strictly increasing sequence numbers starting above the tracked
`last_seq_index`. -/
def seqChainB : Option Int → List ICMPResponse → Bool
  | _, [] => true
  | last, p :: rest =>
    (match last with
     | none => true
     | some l => decide (l < p.icmp_seq)) && seqChainB (some p.icmp_seq) rest

/-- The final sequence number of a packet list (`dflt` when empty). -/
def lastSeq (dflt : Int) : List ICMPResponse → Int
  | [] => dflt
  | p :: rest => lastSeq p.icmp_seq rest

theorem lastSeq_ge :
    ∀ (pkts : List ICMPResponse) (l : Int), seqChainB (some l) pkts = true →
      l ≤ lastSeq l pkts := by
  intro pkts
  induction pkts with
  | nil =>
    intro l _
    exact le_rfl
  | cons p rest ih =>
    intro l h
    simp only [seqChainB, Bool.and_eq_true, decide_eq_true_eq] at h
    have := ih p.icmp_seq h.2
    simp only [lastSeq]
    omega

/-- `emitForPacket` with no previous sequence number yields only the
(host-fixed) packet. -/
theorem emitForPacket_none (ip : String) (p : ICMPResponse) :
    emitForPacket ip none p = [if p.lost then { p with host := some ip } else p] := by
  unfold emitForPacket
  cases hl : p.lost <;> rfl

/-- `emitForPacket` with a previous sequence number, in closed form. -/
theorem emitForPacket_some (ip : String) (l : Int) (p : ICMPResponse) :
    emitForPacket ip (some l) p =
      (if p.icmp_seq - l > 1 then (intRange (l + 1) p.icmp_seq).map (lostEvent ip)
       else []) ++ [if p.lost then { p with host := some ip } else p] := by
  unfold emitForPacket
  cases hl : p.lost <;> rfl

theorem hostFixed_icmp_seq (ip : String) (p : ICMPResponse) :
    (if p.lost then { p with host := some ip } else p).icmp_seq = p.icmp_seq := by
  split <;> rfl

theorem emitForPacket_seqs (ip : String) (l : Int) (p : ICMPResponse)
    (h : l < p.icmp_seq) :
    (emitForPacket ip (some l) p).map ICMPResponse.icmp_seq =
      intRange (l + 1) (p.icmp_seq + 1) := by
  rw [emitForPacket_some, List.map_append, List.map_cons, List.map_nil,
      hostFixed_icmp_seq]
  by_cases hgap : p.icmp_seq - l > 1
  · rw [if_pos hgap, List.map_map]
    have hmap : (ICMPResponse.icmp_seq ∘ lostEvent ip) = id := by
      funext i
      rfl
    rw [hmap, List.map_id]
    exact intRange_concat (l + 1) p.icmp_seq (by omega)
  · rw [if_neg hgap]
    simp only [List.map_nil, List.nil_append]
    have he : p.icmp_seq = l + 1 := by omega
    rw [he, intRange_singleton]

theorem pingEmit_seqs (ip : String) :
    ∀ (pkts : List ICMPResponse) (l : Int), seqChainB (some l) pkts = true →
      (pingEmit ip (some l) pkts).map ICMPResponse.icmp_seq =
        intRange (l + 1) (lastSeq l pkts + 1) := by
  intro pkts
  induction pkts with
  | nil =>
    intro l _
    simp [pingEmit, lastSeq, intRange_self]
  | cons p rest ih =>
    intro l h
    simp only [seqChainB, Bool.and_eq_true, decide_eq_true_eq] at h
    obtain ⟨hlp, hrest⟩ := h
    simp only [pingEmit, List.map_append]
    rw [emitForPacket_seqs ip l p hlp, ih p.icmp_seq hrest]
    have hlast : p.icmp_seq ≤ lastSeq p.icmp_seq rest := lastSeq_ge rest p.icmp_seq hrest
    simp only [lastSeq]
    exact intRange_append (l + 1) (p.icmp_seq + 1) (lastSeq p.icmp_seq rest + 1)
      (by omega) (by omega)

/-- A concrete real (non-lost) reply packet. -/
def realPkt (seq : Int) : ICMPResponse :=
  { host := some "10.0.0.1", time_ms := TimeMs.fin 30, icmp_seq := seq, ttl := 53,
    packet_size_bytes := some 64 }

/-- C4: whenever a newly parsed response's sequence number exceeds the
last emitted one plus 1, the engine emits one synthesized lost event
(`time_ms = +inf`) per skipped sequence number, in increasing `range`
order, before the real event; real packets `0, 1, 3` therefore yield
`seq0 real, seq1 real, seq2 synthesized-lost, seq3 real`; and for every
strictly increasing parsed stream, the emitted sequence numbers are
exactly the integer range from the first to the last parsed sequence
number — each exactly once, in increasing order. -/
theorem c4_gap_synthesis :
    (∀ (ip : String) (l : Int) (p : ICMPResponse), p.icmp_seq - l > 1 →
      emitForPacket ip (some l) p =
        (intRange (l + 1) p.icmp_seq).map (lostEvent ip) ++
          [if p.lost then { p with host := some ip } else p] ∧
      (∀ i : Int, (lostEvent ip i).time_ms = TimeMs.inf)) ∧
    pingEmit "10.0.0.1" none [realPkt 0, realPkt 1, realPkt 3] =
      [realPkt 0, realPkt 1, lostEvent "10.0.0.1" 2, realPkt 3] ∧
    (∀ (ip : String) (p : ICMPResponse) (rest : List ICMPResponse),
      seqChainB none (p :: rest) = true →
      (pingEmit ip none (p :: rest)).map ICMPResponse.icmp_seq =
        intRange p.icmp_seq (lastSeq p.icmp_seq rest + 1) ∧
      List.Pairwise (fun x y => x < y)
        ((pingEmit ip none (p :: rest)).map ICMPResponse.icmp_seq) ∧
      ((pingEmit ip none (p :: rest)).map ICMPResponse.icmp_seq).Nodup) := by
  refine ⟨?_, by decide, ?_⟩
  · intro ip l p hgap
    refine ⟨?_, fun i => rfl⟩
    rw [emitForPacket_some, if_pos hgap]
  · intro ip p rest h
    simp only [seqChainB, Bool.true_and] at h
    have hlast : p.icmp_seq ≤ lastSeq p.icmp_seq rest := lastSeq_ge rest p.icmp_seq h
    have hmain : (pingEmit ip none (p :: rest)).map ICMPResponse.icmp_seq =
        intRange p.icmp_seq (lastSeq p.icmp_seq rest + 1) := by
      simp only [pingEmit, List.map_append]
      rw [emitForPacket_none, List.map_cons, List.map_nil, hostFixed_icmp_seq,
          pingEmit_seqs ip rest p.icmp_seq h, List.singleton_append,
          intRange_cons p.icmp_seq (lastSeq p.icmp_seq rest + 1) (by omega)]
    refine ⟨hmain, ?_, ?_⟩
    · rw [hmain]
      exact intRange_pairwise _ _
    · rw [hmain]
      exact List.Pairwise.imp (fun hlt => ne_of_lt hlt) (intRange_pairwise _ _)

/-- Witness for C4's universally quantified parts at a concrete stream
with one two-packet gap. -/
theorem c4_witness :
    (emitForPacket "h" (some 1) (realPkt 4) =
        (intRange 2 4).map (lostEvent "h") ++
          [if (realPkt 4).lost then { realPkt 4 with host := some "h" } else realPkt 4] ∧
      (∀ i : Int, (lostEvent "h" i).time_ms = TimeMs.inf)) ∧
    ((pingEmit "h" none (realPkt 0 :: [realPkt 2])).map ICMPResponse.icmp_seq =
        intRange (realPkt 0).icmp_seq (lastSeq (realPkt 0).icmp_seq [realPkt 2] + 1) ∧
      List.Pairwise (fun x y => x < y)
        ((pingEmit "h" none (realPkt 0 :: [realPkt 2])).map ICMPResponse.icmp_seq) ∧
      ((pingEmit "h" none (realPkt 0 :: [realPkt 2])).map ICMPResponse.icmp_seq).Nodup) :=
  ⟨c4_gap_synthesis.1 "h" 1 (realPkt 4) (by decide),
   c4_gap_synthesis.2.2 "h" (realPkt 0) [realPkt 2] (by decide)⟩

/-! ## Exit-policy claims -/

/-- `ExitAfterPolicy(5, Packets)`. -/
def pkt5 : ExitAfterPolicy := { value := 5, unit := TimeUnit.packets, other_policies := [] }

/-- A parsed stream with a three-packet gap after sequence 1 and a sixth
line past the policy threshold. -/
def gapInput : List ICMPResponse :=
  [realPkt 0, realPkt 1, realPkt 5, realPkt 6, realPkt 7, realPkt 8]

theorem shouldExit_pkt5 (e : Rat) (n : Nat) :
    shouldExit (some pkt5) e n = decide (5 ≤ n) := by
  simp only [shouldExit, ExitAfterPolicy.poll, pkt5, subPoll, List.all_nil, Bool.and_true]
  rw [decide_eq_decide]
  constructor
  · intro h
    exact_mod_cast h
  · intro h
    exact_mod_cast h

theorem pingRun_pkt5_aux (elapsedAt : Nat → Rat) (ip : String) :
    ∀ (lines : List ICMPResponse) (step count : Nat) (last : Option Int), count < 5 →
      pingRunAux (some pkt5) elapsedAt ip lines step count last =
        (pingEmit ip last (lines.take (5 - count)), min 5 (count + lines.length)) := by
  intro lines
  induction lines with
  | nil =>
    intro step count last h
    unfold pingRunAux
    rw [shouldExit_pkt5, decide_eq_false (by omega)]
    simp only [Bool.false_eq_true, if_false, List.take_nil, List.length_nil]
    rw [show pingEmit ip last [] = [] from rfl]
    have : min 5 (count + 0) = count := by omega
    rw [this]
  | cons p rest ih =>
    intro step count last h
    unfold pingRunAux
    rw [shouldExit_pkt5, decide_eq_false (by omega)]
    simp only [Bool.false_eq_true, if_false]
    have htake : 5 - count = (5 - (count + 1)) + 1 := by omega
    rw [htake, List.take_succ_cons,
        show pingEmit ip last (p :: List.take (5 - (count + 1)) rest) =
          emitForPacket ip last p ++ pingEmit ip (some p.icmp_seq)
            (List.take (5 - (count + 1)) rest) from rfl]
    by_cases h5 : count + 1 < 5
    · rw [ih (step + 1) (count + 1) (some p.icmp_seq) h5]
      simp only [List.length_cons, Prod.mk.injEq, true_and]
      omega
    · have hc : count + 1 = 5 := by omega
      have hstop : pingRunAux (some pkt5) elapsedAt ip rest (step + 1) (count + 1)
          (some p.icmp_seq) = ([], count + 1) := by
        unfold pingRunAux
        rw [shouldExit_pkt5, decide_eq_true (by omega)]
        rfl
      rw [hstop]
      have htz : 5 - (count + 1) = 0 := by omega
      rw [htz, List.take_zero,
          show pingEmit ip (some p.icmp_seq) ([] : List ICMPResponse) = [] from rfl,
          List.append_nil]
      simp only [List.length_cons, Prod.mk.injEq, true_and]
      omega

unseal Rat.mul Rat.inv Rat.add Rat.sub in
/-- C5 counterexample: with `ExitAfterPolicy(5, Packets)` and the parsed
stream `0, 1, 5, 6, 7, 8` (elapsed time held at 0), the probe stops with
`packet_count = 5` — only parsed lines are counted — after having
emitted 8 real-or-synthetic packet events (the three synthesized
gap-loss events are not counted), so it does not stop after exactly 5
emitted events. -/
theorem c5_counterexample :
    (pingRunAux (some pkt5) (fun _ => 0) "h" gapInput 0 0 none).1.length = 8 ∧
    (pingRunAux (some pkt5) (fun _ => 0) "h" gapInput 0 0 none).2 = 5 ∧
    (8 : Nat) ≠ 5 := by
  decide

/-- C5 (amended): `ExitAfterPolicy(5, Packets)` stops the read loop
after exactly `min 5 (number of lines)` parsed packet events — real
replies and parsed timeout lines; synthesized gap-loss events are
emitted but not counted — independently of elapsed time;
`ExitAfterPolicy(5, Seconds)` polls true exactly when elapsed wall time
is at least 5, independent of the packet count; and `poll` is the
logical AND of the policy's own threshold test and every combined
policy's own threshold test. -/
theorem c5_exit_policy :
    (∀ (elapsedAt : Nat → Rat) (ip : String) (lines : List ICMPResponse),
      pingRunAux (some pkt5) elapsedAt ip lines 0 0 none =
        (pingEmit ip none (lines.take 5), min 5 lines.length)) ∧
    (∀ (e : Rat) (n : Nat),
      (ExitAfterPolicy.mk 5 TimeUnit.seconds []).poll e n = decide (5 ≤ e)) ∧
    (∀ (p : ExitAfterPolicy) (e : Rat) (n : Nat),
      (p.poll e n = true ↔
        (subPoll p.value p.unit e n = true ∧
          ∀ q ∈ p.other_policies, subPoll q.value q.unit e n = true))) := by
  refine ⟨?_, ?_, ?_⟩
  · intro elapsedAt ip lines
    have := pingRun_pkt5_aux elapsedAt ip lines 0 0 none (by omega)
    simpa using this
  · intro e n
    simp [ExitAfterPolicy.poll, subPoll]
  · intro p e n
    simp [ExitAfterPolicy.poll, Bool.and_eq_true, List.all_eq_true]

/-- Witness for C5 (amended) at a concrete policy, stream and clock. -/
theorem c5_witness :
    pingRunAux (some pkt5) (fun _ => 2) "h" gapInput 0 0 none =
      (pingEmit "h" none (gapInput.take 5), min 5 gapInput.length) ∧
    (ExitAfterPolicy.mk 5 TimeUnit.seconds []).poll 7 0 = decide ((5 : Rat) ≤ 7) ∧
    ((ExitAfterPolicy.mk 5 TimeUnit.seconds [pkt5]).poll 7 9 = true ↔
      (subPoll 5 TimeUnit.seconds 7 9 = true ∧
        ∀ q ∈ [pkt5], subPoll q.value q.unit 7 9 = true)) :=
  ⟨c5_exit_policy.1 (fun _ => 2) "h" gapInput,
   c5_exit_policy.2.1 7 0,
   c5_exit_policy.2.2 (ExitAfterPolicy.mk 5 TimeUnit.seconds [pkt5]) 7 9⟩

/-! ## Aggregation claim -/

/-- A leaf queue with a packet counter and a load factor, parented under
`parent`. -/
def c3Leaf (nm : String) (pk lf : Rat) : QueueMetrics :=
  { name := nm, children := [], metrics := [("pkts", pk), ("queue_load_factor", lf)],
    parent := some "parent" }

/-- The parent queue of the two leaves, with zeroed counters. -/
def c3Parent : QueueMetrics :=
  { name := "parent", children := ["a", "b"],
    metrics := [("pkts", 0), ("queue_load_factor", 0)], parent := none }

/-- The two-leaf forest of the C3 example, in either traversal (map)
order. -/
def c3Queues (ord : Bool) (p1 p2 l1 l2 : Rat) : List (String × QueueMetrics) :=
  if ord then
    [("parent", c3Parent), ("a", c3Leaf "a" p1 l1), ("b", c3Leaf "b" p2 l2)]
  else
    [("parent", c3Parent), ("b", c3Leaf "b" p2 l2), ("a", c3Leaf "a" p1 l1)]

/-! ## Association-map facts used by the aggregation proof -/

theorem alookup_aset {α : Type} (m : List (String × α)) (k k' : String) (v : α) :
    alookup (aset m k v) k' = if k = k' then some v else alookup m k' := by
  induction m with
  | nil => rfl
  | cons kv rest ih =>
    obtain ⟨a, b⟩ := kv
    by_cases hak : a = k
    · subst hak
      by_cases hk' : a = k' <;> simp [aset, alookup, hk']
    · by_cases hk' : k = k' <;> by_cases hak' : a = k' <;>
        simp_all [aset, alookup]

theorem aset_map_fst {α : Type} (m : List (String × α)) (k : String) (v : α)
    (h : k ∈ m.map Prod.fst) : (aset m k v).map Prod.fst = m.map Prod.fst := by
  induction m with
  | nil => simp at h
  | cons kv rest ih =>
    by_cases hak : kv.1 = k
    · simp [aset, hak]
    · have h' : k ∈ rest.map Prod.fst := by
        rcases (List.mem_map.mp h) with ⟨x, hx, hxk⟩
        rcases List.mem_cons.mp hx with h1 | h2
        · exact absurd (h1 ▸ hxk) hak
        · exact List.mem_map.mpr ⟨x, h2, hxk⟩
      simp [aset, hak, ih h']

theorem alookup_eq_none_iff {α : Type} (m : List (String × α)) (k : String) :
    alookup m k = none ↔ k ∉ m.map Prod.fst := by
  induction m with
  | nil => simp [alookup]
  | cons kv rest ih =>
    rw [alookup]
    by_cases hk : kv.1 = k
    · simp [hk]
    · have hk' : ¬ (k = kv.1) := fun he => hk he.symm
      simp [hk, hk', ih]

theorem alookup_isSome_iff {α : Type} (m : List (String × α)) (k : String) :
    (alookup m k).isSome ↔ k ∈ m.map Prod.fst := by
  rw [← Decidable.not_not (p := k ∈ m.map Prod.fst), ← alookup_eq_none_iff]
  cases alookup m k <;> simp

theorem mem_of_alookup {α : Type} {m : List (String × α)} {n : String} {q : α}
    (h : alookup m n = some q) : (n, q) ∈ m := by
  induction m with
  | nil => simp [alookup] at h
  | cons kv rest ih =>
    rw [alookup] at h
    split at h
    · rename_i heq
      injection h with h2
      subst h2
      obtain ⟨a, b⟩ := kv
      simp only at heq
      subst heq
      exact List.mem_cons_self _ _
    · exact List.mem_cons_of_mem _ (ih h)

theorem alookup_of_mem {α : Type} {m : List (String × α)}
    (hd : (m.map Prod.fst).Nodup) {kv : String × α} (h : kv ∈ m) :
    alookup m kv.1 = some kv.2 := by
  induction m with
  | nil => simp at h
  | cons hd' rest ih =>
    rcases List.mem_cons.mp h with h1 | h2
    · subst h1
      simp [alookup]
    · have hne : hd'.1 ≠ kv.1 := by
        intro he
        have : kv.1 ∈ rest.map Prod.fst := List.mem_map.mpr ⟨kv, h2, rfl⟩
        rw [← he] at this
        exact (List.nodup_cons.mp (by simpa using hd)).1 this
      rw [alookup, if_neg hne]
      exact ih (List.nodup_cons.mp (by simpa using hd)).2 h2

/-! ## Ancestor chains of a queue forest

Specification vocabulary for the general aggregation claim: the strict
ancestor chain of a node (following the stored parent pointers of the
input map), the leaf rows, and the per-key sum of leaf contributions
along those chains. -/

/-- Metric value of node `n` at key `k` in a queue map. -/
def mval (st : List (String × QueueMetrics)) (n k : String) : Option Rat :=
  match alookup st n with
  | some q => alookup q.metrics k
  | none => none

/-- Fuelled ancestor chain starting from a parent pointer. -/
def ancChainF (Q : List (String × QueueMetrics)) : Nat → Option String → List String
  | _, none => []
  | 0, some _ => []
  | fuel + 1, some p =>
    p :: (match alookup Q p with
          | some pq => ancChainF Q fuel pq.parent
          | none => [])

/-- The strict ancestor chain from a parent pointer, with canonical fuel
(on a forest every chain is shorter than the node count). -/
def chainC (Q : List (String × QueueMetrics)) (par : Option String) : List String :=
  ancChainF Q (Q.length + 1) par

/-- The strict ancestors of the node named `n`. -/
def chainOfName (Q : List (String × QueueMetrics)) (n : String) : List String :=
  match alookup Q n with
  | some q => chainC Q q.parent
  | none => []

/-- The leaf rows (no children) of a queue map, in map order. -/
def leafRows (Q : List (String × QueueMetrics)) : List (String × QueueMetrics) :=
  Q.filter (fun kv => kv.2.children.isEmpty)

/-- Total contribution at key `k` that the leaves having `n` as a strict
ancestor deliver to `n`. -/
def ancestorSum (Q : List (String × QueueMetrics)) (n k : String) : Rat :=
  ((leafRows Q).map (fun kv =>
    if n ∈ chainOfName Q kv.1 then (alookup kv.2.metrics k).getD 0 else 0)).sum

/-- Per-row parent consistency: the parent, when present, exists in the
map, sits strictly closer to its root (`dep` decreases), and lists this
row among its children. -/
def parentOKb (Q : List (String × QueueMetrics)) (dep : String → Nat)
    (kv : String × QueueMetrics) : Bool :=
  match kv.2.parent with
  | none => true
  | some p =>
    match alookup Q p with
    | none => false
    | some qp => decide (dep p < dep kv.1) && decide (kv.1 ∈ qp.children)

/-- A well-formed queue forest: unique node names, each row's `name`
field matching its key, a uniform metric key list `K` containing
`queue_load_factor`, consistent parent pointers strictly decreasing
along a depth measure bounded by the node count, and every internal node
an ancestor of some leaf (true of every finite forest). -/
structure ForestWF (Q : List (String × QueueMetrics)) (dep : String → Nat)
    (K : List String) : Prop where
  nodupKeys : (Q.map Prod.fst).Nodup
  nameOK : ∀ kv ∈ Q, kv.2.name = kv.1
  keysOK : ∀ kv ∈ Q, kv.2.metrics.map Prod.fst = K
  kNodup : K.Nodup
  qlfMem : "queue_load_factor" ∈ K
  parentOK : ∀ kv ∈ Q, parentOKb Q dep kv = true
  depBound : ∀ kv ∈ Q, dep kv.1 < Q.length
  leafCover : ∀ kv ∈ Q, kv.2.children ≠ [] →
    ∃ lv ∈ Q, lv.2.children = [] ∧ kv.1 ∈ chainOfName Q lv.1

theorem ancChainF_none (Q : List (String × QueueMetrics)) (fuel : Nat) :
    ancChainF Q fuel none = [] := by
  cases fuel <;> rfl

theorem chainC_none (Q : List (String × QueueMetrics)) : chainC Q none = [] :=
  ancChainF_none Q _

theorem parentOKb_elim {Q : List (String × QueueMetrics)} {dep : String → Nat}
    {kv : String × QueueMetrics} (h : parentOKb Q dep kv = true)
    {p : String} (hp : kv.2.parent = some p) :
    ∃ qp, alookup Q p = some qp ∧ dep p < dep kv.1 ∧ kv.1 ∈ qp.children := by
  unfold parentOKb at h
  split at h
  · rename_i heq
    rw [hp] at heq
    cases heq
  · rename_i p' hp'
    rw [hp] at hp'
    injection hp' with hpp
    subst hpp
    split at h
    · simp at h
    · rename_i qp hqp
      simp only [Bool.and_eq_true, decide_eq_true_eq] at h
      exact ⟨qp, hqp, h.1, h.2⟩

theorem ancChainF_stable {Q : List (String × QueueMetrics)} {dep : String → Nat}
    (hpar : ∀ kv ∈ Q, parentOKb Q dep kv = true) :
    ∀ (D : Nat) (p : String) (qp : QueueMetrics), dep p < D →
      alookup Q p = some qp →
      ∀ (f₁ f₂ : Nat), dep p < f₁ → dep p < f₂ →
        ancChainF Q f₁ (some p) = ancChainF Q f₂ (some p) := by
  intro D
  induction D with
  | zero =>
    intro p qp h
    omega
  | succ D ih =>
    intro p qp hD hlook f₁ f₂ h₁ h₂
    obtain ⟨g₁, rfl⟩ : ∃ g, f₁ = g + 1 := ⟨f₁ - 1, by omega⟩
    obtain ⟨g₂, rfl⟩ : ∃ g, f₂ = g + 1 := ⟨f₂ - 1, by omega⟩
    simp only [ancChainF, hlook]
    cases hqpp : qp.parent with
    | none => rw [ancChainF_none, ancChainF_none]
    | some gp =>
      obtain ⟨qgp, hgp, hdlt, _⟩ :=
        parentOKb_elim (hpar _ (mem_of_alookup hlook)) hqpp
      have hdlt2 : dep gp < dep p := hdlt
      exact congrArg (p :: ·)
        (ih gp qgp (by omega) hgp g₁ g₂ (by omega) (by omega))

theorem chainC_unfold {Q : List (String × QueueMetrics)} {dep : String → Nat}
    (hpar : ∀ kv ∈ Q, parentOKb Q dep kv = true)
    (hdepb : ∀ kv ∈ Q, dep kv.1 < Q.length)
    {p : String} {qp : QueueMetrics} (hlook : alookup Q p = some qp) :
    chainC Q (some p) = p :: chainC Q qp.parent := by
  unfold chainC
  simp only [ancChainF, hlook]
  cases hqpp : qp.parent with
  | none => rw [ancChainF_none, ancChainF_none]
  | some gp =>
    obtain ⟨qgp, hgp, hdlt, _⟩ :=
      parentOKb_elim (hpar _ (mem_of_alookup hlook)) hqpp
    have hdlt2 : dep gp < dep p := hdlt
    have hdp : dep p < Q.length := hdepb (p, qp) (mem_of_alookup hlook)
    exact congrArg (p :: ·)
      (ancChainF_stable hpar (dep gp + 1) gp qgp (by omega) hgp _ _
        (by omega) (by omega))

theorem chain_elems {Q : List (String × QueueMetrics)} {dep : String → Nat}
    (hpar : ∀ kv ∈ Q, parentOKb Q dep kv = true)
    (hdepb : ∀ kv ∈ Q, dep kv.1 < Q.length) :
    ∀ (D : Nat) (m : String) (q : QueueMetrics), dep m < D →
      alookup Q m = some q →
      ∀ x ∈ chainC Q q.parent,
        ∃ qx, alookup Q x = some qx ∧ qx.children ≠ [] ∧ dep x < dep m := by
  intro D
  induction D with
  | zero =>
    intro m q h
    omega
  | succ D ih =>
    intro m q hD hlook x hx
    cases hqp : q.parent with
    | none =>
      rw [hqp] at hx
      simp [chainC, ancChainF] at hx
    | some p =>
      rw [hqp] at hx
      obtain ⟨qp, hplook, hdlt, hchl⟩ :=
        parentOKb_elim (hpar _ (mem_of_alookup hlook)) hqp
      have hdlt2 : dep p < dep m := hdlt
      rw [chainC_unfold hpar hdepb hplook] at hx
      rcases List.mem_cons.mp hx with rfl | hx'
      · exact ⟨qp, hplook, List.ne_nil_of_mem hchl, hdlt2⟩
      · obtain ⟨qx, h1, h2, h3⟩ := ih p qp (by omega) hplook x hx'
        exact ⟨qx, h1, h2, by omega⟩

/-- Structural agreement with the input map: same keys in the same
order, and every node keeps its name, children, parent and metric key
list — the aggregation only rewrites metric values. -/
def structLike (Q st : List (String × QueueMetrics)) (K : List String) : Prop :=
  st.map Prod.fst = Q.map Prod.fst ∧
  ∀ n q, alookup Q n = some q → ∃ q', alookup st n = some q' ∧
    q'.name = q.name ∧ q'.children = q.children ∧ q'.parent = q.parent ∧
    q'.metrics.map Prod.fst = K

theorem mval_aset (st : List (String × QueueMetrics)) (p : String)
    (v : QueueMetrics) (n k : String) :
    mval (aset st p v) n k = if p = n then alookup v.metrics k else mval st n k := by
  unfold mval
  rw [alookup_aset]
  by_cases h : p = n <;> simp [h]

theorem addMetricsTo_spec :
    ∀ (ms m : List (String × Rat)), (ms.map Prod.fst).Nodup →
      (∀ k ∈ ms.map Prod.fst, k ∈ m.map Prod.fst) →
      ∃ m', addMetricsTo m ms = some m' ∧ m'.map Prod.fst = m.map Prod.fst ∧
        ∀ k, alookup m' k = (alookup m k).map (fun x => x + (alookup ms k).getD 0) := by
  intro ms
  induction ms with
  | nil =>
    intro m _ _
    refine ⟨m, rfl, rfl, fun k => ?_⟩
    cases alookup m k <;> simp [alookup]
  | cons kv rest ih =>
    intro m hnd hsub
    obtain ⟨k₀, v₀⟩ := kv
    have hk₀m : k₀ ∈ m.map Prod.fst := hsub k₀ (by simp)
    obtain ⟨old, hold⟩ :=
      Option.isSome_iff_exists.mp ((alookup_isSome_iff m k₀).mpr hk₀m)
    have hnd2 := hnd
    rw [List.map_cons] at hnd2
    have hcons := List.nodup_cons.mp hnd2
    have hk₀rest : k₀ ∉ rest.map Prod.fst := hcons.1
    have hsub' : ∀ k ∈ rest.map Prod.fst, k ∈ (aset m k₀ (old + v₀)).map Prod.fst := by
      intro k hk
      rw [aset_map_fst m k₀ _ hk₀m]
      exact hsub k (by simp [hk])
    obtain ⟨m', hrun, hfst, hval⟩ := ih (aset m k₀ (old + v₀)) hcons.2 hsub'
    refine ⟨m', ?_, ?_, ?_⟩
    · simp only [addMetricsTo, hold]
      exact hrun
    · rw [hfst, aset_map_fst m k₀ _ hk₀m]
    · intro k
      rw [hval k, alookup_aset]
      by_cases hk : k₀ = k
      · subst hk
        rw [if_pos rfl, hold]
        have hr0 : alookup rest k₀ = none := (alookup_eq_none_iff rest k₀).mpr hk₀rest
        simp [alookup, hr0, add_assoc]
      · rw [if_neg hk]
        have : alookup ((k₀, v₀) :: rest) k = alookup rest k := by
          rw [alookup, if_neg hk]
        rw [this]

theorem ascendAdd_spec {Q : List (String × QueueMetrics)} {dep : String → Nat}
    {K : List String}
    (hpar : ∀ kv ∈ Q, parentOKb Q dep kv = true)
    (hdepb : ∀ kv ∈ Q, dep kv.1 < Q.length)
    (hKnd : K.Nodup) :
    ∀ (fuel : Nat) (st : List (String × QueueMetrics)) (ms : List (String × Rat))
      (par : Option String) (nd : QueueMetrics),
      structLike Q st K →
      ms.map Prod.fst = K →
      nd.parent = par →
      (match par with
       | none => 0 < fuel
       | some p => (∃ qp, alookup Q p = some qp) ∧ dep p + 2 ≤ fuel) →
      ∃ st', ascendAdd fuel st ms nd = some st' ∧ structLike Q st' K ∧
        ∀ n k, mval st' n k =
          if n ∈ chainC Q par
          then (mval st n k).map (fun x => x + (alookup ms k).getD 0)
          else mval st n k := by
  intro fuel
  induction fuel with
  | zero =>
    intro st ms par nd _ _ _ hok
    cases par with
    | none => exact absurd hok (by omega)
    | some p => exact absurd hok.2 (by omega)
  | succ f ih =>
    intro st ms par nd hstruct hmsK hndp hok
    cases par with
    | none =>
      refine ⟨st, ?_, hstruct, fun n k => ?_⟩
      · simp only [ascendAdd, hndp]
      · rw [chainC_none]
        simp
    | some p =>
      obtain ⟨⟨qp, hqp⟩, hfuel⟩ := hok
      obtain ⟨p', hp'look, hpname, hpchild, hpparent, hpkeys⟩ := hstruct.2 p qp hqp
      have hmsnd : (ms.map Prod.fst).Nodup := hmsK ▸ hKnd
      have hsub : ∀ k ∈ ms.map Prod.fst, k ∈ p'.metrics.map Prod.fst := by
        intro k hk
        rw [hpkeys, ← hmsK]
        exact hk
      obtain ⟨m', hB, hBfst, hBval⟩ := addMetricsTo_spec ms p'.metrics hmsnd hsub
      have hpQmem : p ∈ Q.map Prod.fst :=
        List.mem_map.mpr ⟨(p, qp), mem_of_alookup hqp, rfl⟩
      have hpstmem : p ∈ st.map Prod.fst := by
        rw [hstruct.1]
        exact hpQmem
      -- the updated parent entry and next state
      have hstruct₁ : structLike Q (aset st p { p' with metrics := m' }) K := by
        constructor
        · rw [aset_map_fst st p _ hpstmem, hstruct.1]
        · intro n q hn
          by_cases hnp : n = p
          · subst hnp
            have hqeq : q = qp := by
              rw [hn] at hqp
              exact Option.some.inj hqp
            subst hqeq
            refine ⟨{ p' with metrics := m' }, ?_, hpname, hpchild, hpparent, ?_⟩
            · rw [alookup_aset, if_pos rfl]
            · rw [← hpkeys]
              exact hBfst
          · obtain ⟨q', h1, h2, h3, h4, h5⟩ := hstruct.2 n q hn
            refine ⟨q', ?_, h2, h3, h4, h5⟩
            rw [alookup_aset, if_neg (fun he => hnp he.symm)]
            exact h1
      have hok' : (match qp.parent with
          | none => 0 < f
          | some gp => (∃ qgp, alookup Q gp = some qgp) ∧ dep gp + 2 ≤ f) := by
        cases hqpp : qp.parent with
        | none => omega
        | some gp =>
          obtain ⟨qgp, hgp, hdlt, _⟩ :=
            parentOKb_elim (hpar _ (mem_of_alookup hqp)) hqpp
          have hdlt2 : dep gp < dep p := hdlt
          exact ⟨⟨qgp, hgp⟩, by omega⟩
      obtain ⟨st'', hrun, hstruct'', hval''⟩ :=
        ih (aset st p { p' with metrics := m' }) ms qp.parent
          { p' with metrics := m' } hstruct₁ hmsK hpparent hok'
      have hchain : chainC Q (some p) = p :: chainC Q qp.parent :=
        chainC_unfold hpar hdepb hqp
      have htail_ne : ∀ x ∈ chainC Q qp.parent, x ≠ p := by
        intro x hx he
        obtain ⟨qx, _, _, hdx⟩ :=
          chain_elems hpar hdepb (dep p + 1) p qp (by omega) hqp x hx
        subst he
        omega
      refine ⟨st'', ?_, hstruct'', fun n k => ?_⟩
      · simp only [ascendAdd, hndp, hp'look, hB]
        exact hrun
      · rw [hval'' n k, hchain]
        by_cases hnp : n = p
        · have hntail : n ∉ chainC Q qp.parent := fun hx => htail_ne n hx hnp
          rw [if_neg hntail, if_pos (by rw [hnp]; exact List.mem_cons_self _ _)]
          have hm₁ : mval (aset st p { p' with metrics := m' }) n k =
              alookup m' k := by
            rw [mval_aset, if_pos hnp.symm]
          rw [hm₁, hBval k]
          have hmst : mval st n k = alookup p'.metrics k := by
            unfold mval
            rw [hnp, hp'look]
          rw [hmst]
        · have hm₁ : mval (aset st p { p' with metrics := m' }) n k = mval st n k := by
            rw [mval_aset, if_neg (fun he => hnp he.symm)]
          rw [hm₁]
          by_cases htl : n ∈ chainC Q qp.parent
          · rw [if_pos htl, if_pos (List.mem_cons_of_mem _ htl)]
          · rw [if_neg htl, if_neg ?_]
            intro hmem
            rcases List.mem_cons.mp hmem with h1 | h2
            · exact hnp h1
            · exact htl h2

/-- Total contribution of a list of leaves to node `n` at key `k`. -/
def contribList (Q : List (String × QueueMetrics)) (L : List QueueMetrics)
    (n k : String) : Rat :=
  (L.map (fun l => if n ∈ chainC Q l.parent then (alookup l.metrics k).getD 0 else 0)).sum

theorem sumPhase1_spec {Q : List (String × QueueMetrics)} {dep : String → Nat}
    {K : List String}
    (hpar : ∀ kv ∈ Q, parentOKb Q dep kv = true)
    (hdepb : ∀ kv ∈ Q, dep kv.1 < Q.length)
    (hKnd : K.Nodup) :
    ∀ (L : List QueueMetrics) (st : List (String × QueueMetrics)),
      structLike Q st K →
      (∀ l ∈ L, l.metrics.map Prod.fst = K ∧
        (match l.parent with
         | none => True
         | some p => (∃ qp, alookup Q p = some qp) ∧ dep p < Q.length)) →
      ∃ st', sumPhase1 (Q.length + 1) st L = some st' ∧ structLike Q st' K ∧
        ∀ n k, mval st' n k = (mval st n k).map (fun x => x + contribList Q L n k) := by
  intro L
  induction L with
  | nil =>
    intro st hstruct _
    refine ⟨st, rfl, hstruct, fun n k => ?_⟩
    unfold contribList
    cases mval st n k <;> simp
  | cons l L' ih =>
    intro st hstruct hL
    obtain ⟨hKl, hpok⟩ := hL l (List.mem_cons_self _ _)
    have hok : (match l.parent with
        | none => 0 < Q.length + 1
        | some p => (∃ qp, alookup Q p = some qp) ∧ dep p + 2 ≤ Q.length + 1) := by
      cases hp : l.parent with
      | none => omega
      | some p =>
        rw [hp] at hpok
        exact ⟨hpok.1, by omega⟩
    obtain ⟨st₁, hA, hstructA, hvalA⟩ :=
      ascendAdd_spec hpar hdepb hKnd (Q.length + 1) st l.metrics l.parent l
        hstruct hKl rfl hok
    obtain ⟨st', hrun, hstruct', hval'⟩ :=
      ih st₁ hstructA (fun l' hl' => hL l' (List.mem_cons_of_mem _ hl'))
    refine ⟨st', ?_, hstruct', fun n k => ?_⟩
    · simp only [sumPhase1, hA]
      exact hrun
    · rw [hval' n k, hvalA n k]
      cases hst : mval st n k with
      | none =>
        by_cases hmem : n ∈ chainC Q l.parent <;> simp [hmem]
      | some x =>
        by_cases hmem : n ∈ chainC Q l.parent
        · simp [hmem, contribList, List.map_cons]
          ring
        · simp [hmem, contribList, List.map_cons]

theorem contribList_leafRows {Q : List (String × QueueMetrics)}
    (hnd : (Q.map Prod.fst).Nodup) (n k : String) :
    contribList Q ((leafRows Q).map (fun kv => kv.2)) n k = ancestorSum Q n k := by
  unfold contribList ancestorSum
  rw [List.map_map]
  congr 1
  apply List.map_congr_left
  intro kv hkv
  have hkvQ : kv ∈ Q := List.mem_of_mem_filter hkv
  have hlook : alookup Q kv.1 = some kv.2 := alookup_of_mem hnd hkvQ
  simp only [Function.comp_apply]
  unfold chainOfName
  rw [hlook]

/-- The nodes phase 2 divides: the strict ancestors of the leaves. -/
def inDivSet (Q : List (String × QueueMetrics)) (x : String) : Prop :=
  ∃ kv ∈ leafRows Q, x ∈ chainOfName Q kv.1

theorem inDivSet_elim {Q : List (String × QueueMetrics)} {dep : String → Nat}
    (hpar : ∀ kv ∈ Q, parentOKb Q dep kv = true)
    (hdepb : ∀ kv ∈ Q, dep kv.1 < Q.length)
    (hnd : (Q.map Prod.fst).Nodup)
    {x : String} (h : inDivSet Q x) :
    ∃ qx, alookup Q x = some qx ∧ qx.children ≠ [] := by
  obtain ⟨kv, hkv, hx⟩ := h
  have hkvQ : kv ∈ Q := List.mem_of_mem_filter hkv
  have hlk : alookup Q kv.1 = some kv.2 := alookup_of_mem hnd hkvQ
  unfold chainOfName at hx
  rw [hlk] at hx
  obtain ⟨qx, h1, h2, _⟩ :=
    chain_elems hpar hdepb (dep kv.1 + 1) kv.1 kv.2 (by omega) hlk x hx
  exact ⟨qx, h1, h2⟩

/-- A leaf contributes to no node's ancestor sum at a leaf position: a
node without children lies on no ancestor chain, so its sums vanish. -/
theorem ancestorSum_leaf {Q : List (String × QueueMetrics)} {dep : String → Nat}
    (hpar : ∀ kv ∈ Q, parentOKb Q dep kv = true)
    (hdepb : ∀ kv ∈ Q, dep kv.1 < Q.length)
    (hnd : (Q.map Prod.fst).Nodup)
    {n : String} {q : QueueMetrics} (hn : alookup Q n = some q)
    (hleaf : q.children = []) (k : String) :
    ancestorSum Q n k = 0 := by
  unfold ancestorSum
  apply List.sum_eq_zero
  intro x hx
  rw [List.mem_map] at hx
  obtain ⟨kv, hkv, rfl⟩ := hx
  rw [if_neg]
  intro hmem
  have hkvQ : kv ∈ Q := List.mem_of_mem_filter hkv
  have hlk : alookup Q kv.1 = some kv.2 := alookup_of_mem hnd hkvQ
  unfold chainOfName at hmem
  rw [hlk] at hmem
  obtain ⟨qx, hqx, hch, _⟩ :=
    chain_elems hpar hdepb (dep kv.1 + 1) kv.1 kv.2 (by omega) hlk n hmem
  have hqq : qx = q := by
    rw [hn] at hqx
    exact (Option.some.inj hqx).symm
  exact hch (hqq ▸ hleaf)

/-- Phase-2 loop invariant: every averaged node with a parent either has
an averaged parent or still has an unprocessed copy of itself on the
stack carrying that parent pointer. -/
def avOblig (Q : List (String × QueueMetrics)) (averaged : List String)
    (stack : List QueueMetrics) : Prop :=
  ∀ a ∈ averaged, ∀ qa, alookup Q a = some qa →
    ∀ p', qa.parent = some p' →
      p' ∈ averaged ∨ ∃ nd ∈ stack, nd.name = a ∧ nd.parent = some p'

/-- Climbing lemma: under the obligation invariant, every strict
ancestor of an averaged node is itself averaged or covered by a stack
entry no deeper than that node. -/
theorem climb {Q : List (String × QueueMetrics)} {dep : String → Nat}
    (hpar : ∀ kv ∈ Q, parentOKb Q dep kv = true)
    (hdepb : ∀ kv ∈ Q, dep kv.1 < Q.length)
    {averaged : List String} {stack : List QueueMetrics}
    (hoblig : avOblig Q averaged stack) :
    ∀ (D : Nat) (a : String) (qa : QueueMetrics), dep a < D →
      a ∈ averaged → alookup Q a = some qa →
      ∀ x ∈ chainC Q qa.parent,
        x ∈ averaged ∨
          ∃ nd ∈ stack, x ∈ chainC Q nd.parent ∧ dep nd.name ≤ dep a := by
  intro D
  induction D with
  | zero =>
    intro a qa h
    omega
  | succ D ih =>
    intro a qa hD hav hlook x hx
    cases hqap : qa.parent with
    | none =>
      rw [hqap, chainC_none] at hx
      cases hx
    | some p' =>
      rw [hqap] at hx
      obtain ⟨qp', hp'look, hdlt, _⟩ :=
        parentOKb_elim (hpar _ (mem_of_alookup hlook)) hqap
      have hdlt2 : dep p' < dep a := hdlt
      rw [chainC_unfold hpar hdepb hp'look] at hx
      have hob := hoblig a hav qa hlook p' hqap
      rcases List.mem_cons.mp hx with rfl | hx'
      · rcases hob with hpav | ⟨nd, hnd, hname, hpr⟩
        · exact Or.inl hpav
        · refine Or.inr ⟨nd, hnd, ?_, le_of_eq (congrArg dep hname)⟩
          rw [hpr, chainC_unfold hpar hdepb hp'look]
          exact List.mem_cons_self _ _
      · rcases hob with hpav | ⟨nd, hnd, hname, hpr⟩
        · rcases ih p' qp' (by omega) hpav hp'look x hx' with h | ⟨nd, hnd, hmem, hle⟩
          · exact Or.inl h
          · exact Or.inr ⟨nd, hnd, hmem, by omega⟩
        · refine Or.inr ⟨nd, hnd, ?_, le_of_eq (congrArg dep hname)⟩
          rw [hpr, chainC_unfold hpar hdepb hp'look]
          exact List.mem_cons_of_mem _ hx'

/-- The parent node as phase 2 rewrites it: `queue_load_factor` divided
by the direct child count. -/
def divQlf (p' : QueueMetrics) (v : Rat) : QueueMetrics :=
  { p' with metrics := aset p'.metrics "queue_load_factor" (v / (p'.children.length : Rat)) }

theorem divQlf_name (p' : QueueMetrics) (v : Rat) : (divQlf p' v).name = p'.name := rfl

theorem divQlf_parent (p' : QueueMetrics) (v : Rat) : (divQlf p' v).parent = p'.parent := rfl

theorem divQlf_metrics (p' : QueueMetrics) (v : Rat) :
    (divQlf p' v).metrics =
      aset p'.metrics "queue_load_factor" (v / (p'.children.length : Rat)) := rfl

theorem sumPhase2_spec {Q : List (String × QueueMetrics)} {dep : String → Nat}
    {K : List String}
    (hpar : ∀ kv ∈ Q, parentOKb Q dep kv = true)
    (hdepb : ∀ kv ∈ Q, dep kv.1 < Q.length)
    (hnd : (Q.map Prod.fst).Nodup)
    (hname : ∀ kv ∈ Q, kv.2.name = kv.1)
    (hqlfK : "queue_load_factor" ∈ K) :
    ∀ (fuel : Nat) (st st1 : List (String × QueueMetrics))
      (averaged : List String) (stack : List QueueMetrics),
      structLike Q st K →
      (∀ nd ∈ stack, ∃ q, alookup Q nd.name = some q ∧ nd.parent = q.parent) →
      (∀ x, inDivSet Q x → x ∈ averaged ∨ ∃ nd ∈ stack, x ∈ chainC Q nd.parent) →
      avOblig Q averaged stack →
      (∀ nd ∈ stack, ∀ x, x ∈ chainC Q nd.parent → inDivSet Q x) →
      averaged.Nodup →
      (∀ a ∈ averaged, inDivSet Q a) →
      stack.length + 2 * (Q.length - averaged.length) + 1 ≤ fuel →
      (∀ n q, alookup Q n = some q →
        (∀ k, k ≠ "queue_load_factor" → mval st n k = mval st1 n k) ∧
        (n ∈ averaged → mval st n "queue_load_factor" =
          (mval st1 n "queue_load_factor").map
            (fun x => x / (q.children.length : Rat))) ∧
        (n ∉ averaged → mval st n "queue_load_factor" = mval st1 n "queue_load_factor")) →
      ∃ res, sumPhase2 fuel st averaged stack = some res ∧ structLike Q res K ∧
        ∀ n q, alookup Q n = some q →
          (∀ k, k ≠ "queue_load_factor" → mval res n k = mval st1 n k) ∧
          (inDivSet Q n → mval res n "queue_load_factor" =
            (mval st1 n "queue_load_factor").map
              (fun x => x / (q.children.length : Rat))) ∧
          (¬ inDivSet Q n → mval res n "queue_load_factor" = mval st1 n "queue_load_factor") := by
  intro fuel
  induction fuel with
  | zero =>
    intro st st1 averaged stack _ _ _ _ _ _ _ hfuel _
    omega
  | succ f ih =>
    intro st st1 averaged stack hstruct hstackOK hINV0 hoblig hINV3 hnodup hsubD hfuel hVI
    cases stack with
    | nil =>
      refine ⟨st, rfl, hstruct, fun n q hn => ?_⟩
      obtain ⟨hVIa, hVIb, hVIc⟩ := hVI n q hn
      refine ⟨hVIa, ?_, ?_⟩
      · intro hD
        rcases hINV0 n hD with hav | ⟨nd, hnd, _⟩
        · exact hVIb hav
        · cases hnd
      · intro hD
        apply hVIc
        intro hav
        exact hD (hsubD n hav)
    | cons nd rest =>
      obtain ⟨qnd, hndlook, hndpar⟩ := hstackOK nd (List.mem_cons_self _ _)
      simp only [List.length_cons] at hfuel
      cases hp : nd.parent with
      | none =>
        obtain ⟨res, hrun, hstr, hfin⟩ :=
          ih st st1 averaged rest hstruct
            (fun nd' h' => hstackOK nd' (List.mem_cons_of_mem _ h'))
            (fun x hx => by
              rcases hINV0 x hx with hav | ⟨nd', hnd', hmem⟩
              · exact Or.inl hav
              · rcases List.mem_cons.mp hnd' with rfl | h'
                · rw [hp, chainC_none] at hmem
                  cases hmem
                · exact Or.inr ⟨nd', h', hmem⟩)
            (fun a ha qa hqa p' hp' => by
              rcases hoblig a ha qa hqa p' hp' with hl | ⟨nd', hnd', hnm, hpr⟩
              · exact Or.inl hl
              · rcases List.mem_cons.mp hnd' with rfl | h'
                · rw [hp] at hpr
                  cases hpr
                · exact Or.inr ⟨nd', h', hnm, hpr⟩)
            (fun nd' h' => hINV3 nd' (List.mem_cons_of_mem _ h'))
            hnodup hsubD (by omega) hVI
        refine ⟨res, ?_, hstr, hfin⟩
        simp only [sumPhase2, hp]
        exact hrun
      | some p =>
        have hqndp : qnd.parent = some p := by rw [← hndpar, hp]
        obtain ⟨qp, hqplook, hdplt, hchld⟩ :=
          parentOKb_elim (hpar _ (mem_of_alookup hndlook)) hqndp
        have hdplt2 : dep p < dep nd.name := hdplt
        obtain ⟨p', hp'look, hpname', hpchild', hpparent', hpkeys'⟩ :=
          hstruct.2 p qp hqplook
        have hqpn : qp.name = p := hname (p, qp) (mem_of_alookup hqplook)
        have hp'n : p'.name = p := by rw [hpname', hqpn]
        have hndchain : chainC Q (some p) = p :: chainC Q qp.parent :=
          chainC_unfold hpar hdepb hqplook
        by_cases hmemav : p ∈ averaged
        · -- parent already averaged: skip
          have hc : averaged.contains p'.name = true := by
            rw [hp'n]
            exact List.elem_iff.mpr hmemav
          obtain ⟨res, hrun, hstr, hfin⟩ :=
            ih st st1 averaged rest hstruct
              (fun nd' h' => hstackOK nd' (List.mem_cons_of_mem _ h'))
              (fun x hx => by
                rcases hINV0 x hx with hav | ⟨nd', hnd', hmem⟩
                · exact Or.inl hav
                · rcases List.mem_cons.mp hnd' with rfl | h'
                  · rw [hp, hndchain] at hmem
                    rcases List.mem_cons.mp hmem with rfl | htail
                    · exact Or.inl hmemav
                    · rcases climb hpar hdepb hoblig (dep p + 1) p qp (by omega)
                        hmemav hqplook x htail with hav₂ | ⟨nd₂, hnd₂, hmem₂, hle₂⟩
                      · exact Or.inl hav₂
                      · rcases List.mem_cons.mp hnd₂ with rfl | h₂
                        · exact absurd hle₂ (by omega)
                        · exact Or.inr ⟨nd₂, h₂, hmem₂⟩
                  · exact Or.inr ⟨nd', h', hmem⟩)
              (fun a ha qa hqa p'' hp'' => by
                rcases hoblig a ha qa hqa p'' hp'' with hl | ⟨nd', hnd', hnm, hpr⟩
                · exact Or.inl hl
                · rcases List.mem_cons.mp hnd' with rfl | h'
                  · rw [hp] at hpr
                    injection hpr with hpp
                    subst hpp
                    exact Or.inl hmemav
                  · exact Or.inr ⟨nd', h', hnm, hpr⟩)
              (fun nd' h' => hINV3 nd' (List.mem_cons_of_mem _ h'))
              hnodup hsubD (by omega) hVI
          refine ⟨res, ?_, hstr, hfin⟩
          simp only [sumPhase2, hp, hp'look, hc, if_true]
          exact hrun
        · -- divide the parent's load factor and push it
          have hc : averaged.contains p'.name = false := by
            rw [hp'n]
            cases hcv : averaged.contains p with
            | false => rfl
            | true => exact absurd (List.elem_iff.mp hcv) hmemav
          have hqlfp' : "queue_load_factor" ∈ p'.metrics.map Prod.fst := by
            rw [hpkeys']
            exact hqlfK
          obtain ⟨v, hv⟩ := Option.isSome_iff_exists.mp
            ((alookup_isSome_iff p'.metrics "queue_load_factor").mpr hqlfp')
          have hpQmem : p ∈ Q.map Prod.fst :=
            List.mem_map.mpr ⟨(p, qp), mem_of_alookup hqplook, rfl⟩
          have hpstmem : p ∈ st.map Prod.fst := by
            rw [hstruct.1]
            exact hpQmem
          -- the updated parent entry and the new loop state
          have hstruct₂ : structLike Q (aset st p (divQlf p' v)) K := by
            constructor
            · rw [aset_map_fst st p _ hpstmem, hstruct.1]
            · intro n q hn
              by_cases hnp : n = p
              · subst hnp
                have hqeq : q = qp := by
                  rw [hn] at hqplook
                  exact Option.some.inj hqplook
                subst hqeq
                refine ⟨divQlf p' v, ?_, ?_, hpchild', hpparent', ?_⟩
                · rw [alookup_aset, if_pos rfl]
                · rw [divQlf_name]
                  exact hpname'
                · rw [divQlf_metrics, aset_map_fst p'.metrics _ _ hqlfp']
                  exact hpkeys'
              · obtain ⟨q', h1, h2, h3, h4, h5⟩ := hstruct.2 n q hn
                refine ⟨q', ?_, h2, h3, h4, h5⟩
                rw [alookup_aset, if_neg (fun he => hnp he.symm)]
                exact h1
          have hsub₂ : ∀ a ∈ p :: averaged, a ∈ Q.map Prod.fst := by
            intro a ha
            have haD : inDivSet Q a := by
              rcases List.mem_cons.mp ha with rfl | ha'
              · apply hINV3 nd (List.mem_cons_self _ _)
                rw [hp, hndchain]
                exact List.mem_cons_self _ _
              · exact hsubD a ha'
            obtain ⟨qa, hqa, _⟩ := inDivSet_elim hpar hdepb hnd haD
            exact List.mem_map.mpr ⟨(a, qa), mem_of_alookup hqa, rfl⟩
          have hnodup₂ : (p :: averaged).Nodup := List.nodup_cons.mpr ⟨hmemav, hnodup⟩
          have hlen₂ : averaged.length + 1 ≤ Q.length := by
            have h1 : (p :: averaged).length ≤ (Q.map Prod.fst).length :=
              (List.subperm_of_subset hnodup₂ hsub₂).length_le
            rw [List.length_map] at h1
            simpa using h1
          obtain ⟨res, hrun, hstr, hfin⟩ :=
            ih (aset st p (divQlf p' v)) st1 (p :: averaged) (rest ++ [divQlf p' v])
              hstruct₂
              (fun nd' h' => by
                rcases List.mem_append.mp h' with h₁ | h₂
                · exact hstackOK nd' (List.mem_cons_of_mem _ h₁)
                · rw [List.mem_singleton.mp h₂]
                  exact ⟨qp, by rw [divQlf_name, hp'n]; exact hqplook,
                    by rw [divQlf_parent]; exact hpparent'⟩)
              (fun x hx => by
                rcases hINV0 x hx with hav | ⟨nd', hnd', hmem⟩
                · exact Or.inl (List.mem_cons_of_mem _ hav)
                · rcases List.mem_cons.mp hnd' with rfl | h'
                  · rw [hp, hndchain] at hmem
                    rcases List.mem_cons.mp hmem with rfl | htail
                    · exact Or.inl (List.mem_cons_self _ _)
                    · refine Or.inr ⟨divQlf p' v,
                        List.mem_append_right _ (List.mem_singleton.mpr rfl), ?_⟩
                      rw [divQlf_parent, hpparent']
                      exact htail
                  · exact Or.inr ⟨nd', List.mem_append_left _ h', hmem⟩)
              (fun a ha qa hqa p'' hp'' => by
                rcases List.mem_cons.mp ha with rfl | ha'
                · have hqaqp : qa = qp := by
                    rw [hqa] at hqplook
                    exact Option.some.inj hqplook
                  refine Or.inr ⟨divQlf p' v,
                    List.mem_append_right _ (List.mem_singleton.mpr rfl),
                    by rw [divQlf_name]; exact hp'n, ?_⟩
                  rw [divQlf_parent, hpparent', ← hqaqp]
                  exact hp''
                · rcases hoblig a ha' qa hqa p'' hp'' with hl | ⟨nd', hnd', hnm, hpr⟩
                  · exact Or.inl (List.mem_cons_of_mem _ hl)
                  · rcases List.mem_cons.mp hnd' with rfl | h'
                    · rw [hp] at hpr
                      injection hpr with hpp
                      exact Or.inl (hpp ▸ List.mem_cons_self _ _)
                    · exact Or.inr ⟨nd', List.mem_append_left _ h', hnm, hpr⟩)
              (fun nd' h' x hx => by
                rcases List.mem_append.mp h' with h₁ | h₂
                · exact hINV3 nd' (List.mem_cons_of_mem _ h₁) x hx
                · apply hINV3 nd (List.mem_cons_self _ _)
                  rw [List.mem_singleton.mp h₂, divQlf_parent, hpparent'] at hx
                  rw [hp, hndchain]
                  exact List.mem_cons_of_mem _ hx)
              hnodup₂
              (fun a ha => by
                rcases List.mem_cons.mp ha with rfl | ha'
                · apply hINV3 nd (List.mem_cons_self _ _)
                  rw [hp, hndchain]
                  exact List.mem_cons_self _ _
                · exact hsubD a ha')
              (by
                simp only [List.length_append, List.length_cons, List.length_nil]
                omega)
              (fun n q hn => by
                obtain ⟨hVIa, hVIb, hVIc⟩ := hVI n q hn
                by_cases hnp : n = p
                · subst hnp
                  have hqeq : q = qp := by
                    rw [hn] at hqplook
                    exact Option.some.inj hqplook
                  have hmv : ∀ k, mval (aset st n (divQlf p' v)) n k =
                      alookup (aset p'.metrics "queue_load_factor"
                        (v / (p'.children.length : Rat))) k := by
                    intro k
                    rw [mval_aset, if_pos rfl, divQlf_metrics]
                  have hmst : ∀ k, mval st n k = alookup p'.metrics k := by
                    intro k
                    unfold mval
                    rw [hp'look]
                  refine ⟨?_, ?_, ?_⟩
                  · intro k hk
                    rw [hmv k, alookup_aset,
                      if_neg (fun he => hk he.symm), ← hmst k]
                    exact hVIa k hk
                  · intro _
                    rw [hmv _, alookup_aset, if_pos rfl]
                    have hst1 : mval st1 n "queue_load_factor" = some v := by
                      rw [← hVIc hmemav, hmst _]
                      exact hv
                    rw [hst1]
                    simp only [Option.map_some']
                    rw [hqeq, ← hpchild']
                  · intro hna
                    exact absurd (List.mem_cons_self _ _) hna
                · have hmv : ∀ k, mval (aset st p (divQlf p' v)) n k = mval st n k := by
                    intro k
                    rw [mval_aset, if_neg (fun he => hnp he.symm)]
                  refine ⟨?_, ?_, ?_⟩
                  · intro k hk
                    rw [hmv k]
                    exact hVIa k hk
                  · intro hna
                    rcases List.mem_cons.mp hna with rfl | hna'
                    · exact absurd rfl hnp
                    · rw [hmv _]
                      exact hVIb hna'
                  · intro hna
                    rw [hmv _]
                    exact hVIc (fun h => hna (List.mem_cons_of_mem _ h)))
          refine ⟨res, ?_, hstr, hfin⟩
          have hrun' : sumPhase2 f (aset st p (divQlf p' v)) (p'.name :: averaged)
              (rest ++ [divQlf p' v]) = some res := by
            rw [hp'n]
            exact hrun
          simp only [sumPhase2, hp, hp'look, hc, Bool.false_eq_true, if_false, hv]
          exact hrun'

/-- C3: for every well-formed queue forest, `summarize_children` adds each
leaf's metric values into every strict ancestor along its parent chain up
to the root — every non-`queue_load_factor` key of every node gains
exactly the sum of the contributions of the leaves whose ancestor chains
pass through it — and divides each node-with-children's accumulated
`queue_load_factor` by its direct child count exactly once, leaving
leaves' load factors untouched; in particular two leaves under one parent
with `pkts` p1, p2 and load factors l1, l2 yield parent `pkts` p1 + p2
and parent load factor (l1 + l2) / 2 in either traversal order (so 5 and
5 sum to 10, and 50 and 25 average to 37.5). -/
theorem c3_summarize :
    (∀ (Q : List (String × QueueMetrics)) (dep : String → Nat) (K : List String),
      ForestWF Q dep K →
      ∃ res, summarize_children Q = some res ∧
        res.map Prod.fst = Q.map Prod.fst ∧
        ∀ n q, alookup Q n = some q →
          ∃ q', alookup res n = some q' ∧
            q'.name = q.name ∧ q'.children = q.children ∧ q'.parent = q.parent ∧
            (∀ k, k ≠ "queue_load_factor" →
              alookup q'.metrics k =
                (alookup q.metrics k).map (fun x => x + ancestorSum Q n k)) ∧
            (q.children = [] →
              alookup q'.metrics "queue_load_factor" =
                alookup q.metrics "queue_load_factor") ∧
            (q.children ≠ [] →
              alookup q'.metrics "queue_load_factor" =
                (alookup q.metrics "queue_load_factor").map
                  (fun x => (x + ancestorSum Q n "queue_load_factor") /
                    (q.children.length : Rat)))) ∧
    (∀ (ord : Bool) (p1 p2 l1 l2 : Rat),
      ∃ res, summarize_children (c3Queues ord p1 p2 l1 l2) = some res ∧
        mval res "parent" "pkts" = some (p1 + p2) ∧
        mval res "parent" "queue_load_factor" = some ((l1 + l2) / 2) ∧
        mval res "a" "pkts" = some p1 ∧
        mval res "a" "queue_load_factor" = some l1 ∧
        mval res "b" "pkts" = some p2 ∧
        mval res "b" "queue_load_factor" = some l2) := by
  constructor
  · intro Q dep K hWF
    obtain ⟨hnd, hname, hkeys, hKnd, hqlfK, hpar, hdepb, hcov⟩ := hWF
    -- phase 1: every leaf climbs its chain adding its metrics
    have hstructQQ : structLike Q Q K :=
      ⟨rfl, fun n q hn => ⟨q, hn, rfl, rfl, rfl, hkeys (n, q) (mem_of_alookup hn)⟩⟩
    have hedges : ∀ l ∈ (leafRows Q).map (fun kv => kv.2),
        l.metrics.map Prod.fst = K ∧
        (match l.parent with
         | none => True
         | some p => (∃ qp, alookup Q p = some qp) ∧ dep p < Q.length) := by
      intro l hl
      obtain ⟨kv, hkv, rfl⟩ := List.mem_map.mp hl
      have hkvQ : kv ∈ Q := List.mem_of_mem_filter hkv
      refine ⟨hkeys kv hkvQ, ?_⟩
      cases hpp : kv.2.parent with
      | none => trivial
      | some p =>
        obtain ⟨qp, hqp, hdlt, _⟩ := parentOKb_elim (hpar kv hkvQ) hpp
        exact ⟨⟨qp, hqp⟩, lt_trans hdlt (hdepb kv hkvQ)⟩
    obtain ⟨st1, hP1, hstruct1, hval1⟩ :=
      sumPhase1_spec hpar hdepb hKnd ((leafRows Q).map (fun kv => kv.2)) Q
        hstructQQ hedges
    -- phase 2: divide every chain node exactly once
    obtain ⟨res, hP2, hstr, hfin⟩ :=
      sumPhase2_spec hpar hdepb hnd hname hqlfK
        (((leafRows Q).map (fun kv => kv.2)).length + 2 * Q.length + 2)
        st1 st1 [] ((leafRows Q).map (fun kv => kv.2))
        hstruct1
        (fun nd hnd' => by
          obtain ⟨kv, hkv, rfl⟩ := List.mem_map.mp hnd'
          have hkvQ : kv ∈ Q := List.mem_of_mem_filter hkv
          refine ⟨kv.2, ?_, rfl⟩
          rw [hname kv hkvQ]
          exact alookup_of_mem hnd hkvQ)
        (fun x hx => by
          obtain ⟨kv, hkv, hmem⟩ := hx
          have hkvQ : kv ∈ Q := List.mem_of_mem_filter hkv
          refine Or.inr ⟨kv.2, List.mem_map.mpr ⟨kv, hkv, rfl⟩, ?_⟩
          unfold chainOfName at hmem
          rw [alookup_of_mem hnd hkvQ] at hmem
          exact hmem)
        (fun a ha => absurd ha (List.not_mem_nil _))
        (fun nd hnd' x hx => by
          obtain ⟨kv, hkv, rfl⟩ := List.mem_map.mp hnd'
          have hkvQ : kv ∈ Q := List.mem_of_mem_filter hkv
          refine ⟨kv, hkv, ?_⟩
          unfold chainOfName
          rw [alookup_of_mem hnd hkvQ]
          exact hx)
        List.nodup_nil
        (fun a ha => absurd ha (List.not_mem_nil _))
        (by
          simp only [List.length_nil]
          omega)
        (fun n q hn =>
          ⟨fun k _ => rfl, fun h => absurd h (List.not_mem_nil _), fun _ => rfl⟩)
    refine ⟨res, ?_, hstr.1, ?_⟩
    · have hcall : summarize_children Q =
          match sumPhase1 (Q.length + 1) Q ((leafRows Q).map (fun kv => kv.2)) with
          | none => none
          | some q1 =>
            sumPhase2 (((leafRows Q).map (fun kv => kv.2)).length + 2 * Q.length + 2)
              q1 [] ((leafRows Q).map (fun kv => kv.2)) := rfl
      rw [hcall]
      simp only [hP1]
      exact hP2
    · intro n q hn
      obtain ⟨q', hq'look, hq'name, hq'child, hq'par, hq'keys⟩ := hstr.2 n q hn
      obtain ⟨hfa, hfb, hfc⟩ := hfin n q hn
      have hmq : ∀ k, mval res n k = alookup q'.metrics k := by
        intro k
        unfold mval
        rw [hq'look]
      have hmQ : ∀ k, mval Q n k = alookup q.metrics k := by
        intro k
        unfold mval
        rw [hn]
      refine ⟨q', hq'look, hq'name, hq'child, hq'par, ?_, ?_, ?_⟩
      · intro k hk
        have h1 := hfa k hk
        rw [hval1 n k, contribList_leafRows hnd n k, hmq k, hmQ k] at h1
        exact h1
      · intro hleaf
        have hnotD : ¬ inDivSet Q n := by
          intro hD
          obtain ⟨qx, hqx, hch⟩ := inDivSet_elim hpar hdepb hnd hD
          have hqq : qx = q := by
            rw [hn] at hqx
            exact (Option.some.inj hqx).symm
          rw [hqq] at hch
          exact hch hleaf
        have h1 := hfc hnotD
        rw [hval1 n _, contribList_leafRows hnd n _,
          ancestorSum_leaf hpar hdepb hnd hn hleaf, hmq _, hmQ _] at h1
        rw [h1]
        cases alookup q.metrics "queue_load_factor" <;> simp
      · intro hchildren
        have hD : inDivSet Q n := by
          obtain ⟨lv, hlvQ, hlvleaf, hmem⟩ := hcov (n, q) (mem_of_alookup hn) hchildren
          exact ⟨lv, List.mem_filter.mpr ⟨hlvQ, by rw [hlvleaf]; rfl⟩, hmem⟩
        have h1 := hfb hD
        rw [hval1 n _, contribList_leafRows hnd n _, hmq _, hmQ _] at h1
        rw [h1]
        cases alookup q.metrics "queue_load_factor" <;> simp
  · intro ord p1 p2 l1 l2
    cases ord
    · refine ⟨_, rfl, ?_, ?_, rfl, rfl, rfl, rfl⟩
      · show some (0 + p2 + p1) = some (p1 + p2)
        congr 1
        ring
      · show some ((0 + l2 + l1) / ((2 : Nat) : Rat)) = some ((l1 + l2) / 2)
        congr 1
        push_cast
        ring
    · refine ⟨_, rfl, ?_, ?_, rfl, rfl, rfl, rfl⟩
      · show some (0 + p1 + p2) = some (p1 + p2)
        congr 1
        ring
      · show some ((0 + l1 + l2) / ((2 : Nat) : Rat)) = some ((l1 + l2) / 2)
        congr 1
        push_cast
        ring

/-- Witness for C3: the claim's own two-leaf forest (pkts 5 and 5, load
factors 50 and 25) is a well-formed forest, the general theorem applies
to it, and the concrete example instance holds. -/
theorem c3_witness :
    (ForestWF (c3Queues true 5 5 50 25)
      (fun n => if n = "parent" then 0 else 1) ["pkts", "queue_load_factor"] ∧
    ∃ res, summarize_children (c3Queues true 5 5 50 25) = some res ∧
      res.map Prod.fst = (c3Queues true 5 5 50 25).map Prod.fst ∧
      ∀ n q, alookup (c3Queues true 5 5 50 25) n = some q →
        ∃ q', alookup res n = some q' ∧
          q'.name = q.name ∧ q'.children = q.children ∧ q'.parent = q.parent ∧
          (∀ k, k ≠ "queue_load_factor" →
            alookup q'.metrics k =
              (alookup q.metrics k).map
                (fun x => x + ancestorSum (c3Queues true 5 5 50 25) n k)) ∧
          (q.children = [] →
            alookup q'.metrics "queue_load_factor" =
              alookup q.metrics "queue_load_factor") ∧
          (q.children ≠ [] →
            alookup q'.metrics "queue_load_factor" =
              (alookup q.metrics "queue_load_factor").map
                (fun x =>
                  (x + ancestorSum (c3Queues true 5 5 50 25) n "queue_load_factor") /
                    (q.children.length : Rat)))) ∧
    (∃ res, summarize_children (c3Queues true 5 5 50 25) = some res ∧
      mval res "parent" "pkts" = some (5 + 5) ∧
      mval res "parent" "queue_load_factor" = some ((50 + 25) / 2) ∧
      mval res "a" "pkts" = some 5 ∧
      mval res "a" "queue_load_factor" = some 50 ∧
      mval res "b" "pkts" = some 5 ∧
      mval res "b" "queue_load_factor" = some 25) := by
  have hWF : ForestWF (c3Queues true 5 5 50 25)
      (fun n => if n = "parent" then 0 else 1) ["pkts", "queue_load_factor"] := by
    constructor <;> decide
  exact ⟨⟨hWF, c3_summarize.1 (c3Queues true 5 5 50 25)
      (fun n => if n = "parent" then 0 else 1) ["pkts", "queue_load_factor"] hWF⟩,
    c3_summarize.2 true 5 5 50 25⟩

end Pfstatsd
